import Mathlib

/-!
# go-openai-bot-discord: command routing and middleware dispatch

A shallow embedding of `pkg/bot` (router.go, context.go, command.go), of the token budget,
the message splitting, the context option and the reply parsing of `pkg/commands/gpt`
(tiktoken.go, utils.go, helpers.go, handler.go, command_option.go), of `utils.IsURL` and of
the moderation middleware of `pkg/commands/dalle` (middleware.go), and theorems about them.
The conversation cache, whose source file is missing, is modelled from the specification.

Conventions of the embedding.

* A Go pointer that the code tests against `nil` is an `Option`; a pointer the code
  dereferences without a test is an `Option` too and the dereference of `none` is the
  run-time panic `Panic.nilDereference`.
* A Go `map[string]T` is an association list with first-match lookup.  The order of the list
  is the order in which a `range` over the map happens to visit the entries; no theorem
  depends on a particular order.
* `append(a, b...)` is list concatenation (slices are compared by contents).
* The tokenizer, `url.Parse`, the HTTP client and the moderation call are external: they
  are parameters of the functions that use them.
  Go strings are valid UTF-8 texts and `len` is their length in bytes.
* A handler is a Go function value.  Its behaviour towards the context is a finite program
  over three actions (its own work, a call of `ctx.Next()`, a binary decision taken from the
  history observed so far); theorems quantify over all such programs.
-/

namespace bot

/-! ## Handlers -/

/-- Observable events of one dispatch: a handler is entered, a handler does own work. -/
inductive Event where
  | invoke (id : Nat) : Event
  | work (label : Nat) : Event
deriving DecidableEq, Repr

/-- Body of a handler function, as far as the context is concerned:
`ret` returns, `next k` calls `ctx.Next()` and goes on with `k`, `work l k` does own work
labelled `l` and goes on with `k`, `branch t e` decides between two continuations (the
decision is taken by the environment from everything that happened so far). -/
inductive Body where
  | ret : Body
  | next (k : Body) : Body
  | work (label : Nat) (k : Body) : Body
  | branch (t e : Body) : Body
deriving DecidableEq, Repr

/-- A non-nil handler value (`HandlerFunc` / `MessageHandlerFunc`): an identity and a body. -/
structure HandlerFunc where
  id : Nat
  body : Body
deriving DecidableEq, Repr

/-- The interface `Handler`; `none` is the nil interface value. -/
abbrev Handler := Option HandlerFunc

/-- The interface `MessageHandler`; `none` is the nil interface value. -/
abbrev MessageHandler := Option HandlerFunc

/-- Run-time panics of the modelled code. -/
inductive Panic where
  | nilDereference : Panic
  | indexOutOfRange : Panic
deriving DecidableEq, Repr

/-! ## Commands and the registry -/

/-- The struct `Router` over an arbitrary command type: `commands map[string]*Command`.
(`registeredCommands` is only used by Sync/ClearCommands and is left out.) -/
structure RouterOf (C : Type) where
  commands : List (String × C)
deriving Repr

/-- The struct `Command`.  The fields DMPermission, DefaultMemberPermissions, Options and
Type are read by no modelled function and are left out. -/
structure Command where
  Name : String
  Description : String
  Handler : bot.Handler
  Middlewares : List bot.Handler
  MessageHandler : bot.MessageHandler
  SubCommands : Option (RouterOf Command)

/-- The struct `Router`. -/
abbrev Router := RouterOf Command

/-- Lookup `m[key]` in a Go map: the value and the `ok` flag in one `Option`. -/
def mapGet {β : Type} : List (String × β) → String → Option β
  | [], _ => none
  | (k, v) :: rest, key => if k = key then some v else mapGet rest key

/-- Assignment `m[key] = v` in a Go map: replaces the entry of `key` or adds one. -/
def mapSet {β : Type} : List (String × β) → String → β → List (String × β)
  | [], key, v => [(key, v)]
  | (k, w) :: rest, key, v => if k = key then (k, v) :: rest else (k, w) :: mapSet rest key v

/-- `Router.Register`: adds the command under its name unless the name is present. -/
def Router.Register (r : Router) (cmd : Command) : Router :=
  match mapGet r.commands cmd.Name with
  | some _ => r
  | none => { commands := mapSet r.commands cmd.Name cmd }

/-- `NewRouter`: an empty map, then `Register` for each initial command in order. -/
def NewRouter (initial : List Command) : Router :=
  initial.foldl Router.Register { commands := [] }

/-- `Router.Get`, nil-safe: `none` as receiver is the nil `*Router`. -/
def Router.Get (r : Option Router) (name : String) : Option Command :=
  match r with
  | none => none
  | some r => mapGet r.commands name

/-- `Router.List`, nil-safe. -/
def Router.List (r : Option Router) : List Command :=
  match r with
  | none => []
  | some r => r.commands.map Prod.snd

/-- `Router.Count`, nil-safe: `len(r.commands)`. -/
def Router.Count (r : Option Router) : Nat :=
  match r with
  | none => 0
  | some r => r.commands.length

/-! ## Structured invocations -/

/-- The struct `discordgo.ApplicationCommandInteractionDataOption` (`Type_` is its field
`Type`). -/
structure DataOption where
  Name : String
  Type_ : Nat
  Value : String
  Options : List DataOption
deriving Repr

/-- The constant `discordgo.ApplicationCommandOptionSubCommand`. -/
def ApplicationCommandOptionSubCommand : Nat := 1

/-- The constant `discordgo.ApplicationCommandOptionSubCommandGroup`. -/
def ApplicationCommandOptionSubCommandGroup : Nat := 2

/-- The constant `discordgo.InteractionApplicationCommand`. -/
def InteractionApplicationCommand : Nat := 2

/-- What `getSubcommand` returns: the resolved command, the option it was resolved from and
the handler chain. -/
abbrev Resolved := Option Command × Option DataOption × List Handler

/-- `Router.getSubcommand` (the receiver is not used by the code). -/
def getSubcommand : Option Command → DataOption → List Handler → Except Panic Resolved
  | none, _, _ => .ok (none, none, [])
  | some cmd, ⟨name, ty, value, options⟩, parent =>
    let subcommand := Router.Get cmd.SubCommands name
    if ty = ApplicationCommandOptionSubCommand then
      match subcommand with
      | none => .error .nilDereference
      | some sub =>
        .ok (some sub, some ⟨name, ty, value, options⟩,
          parent ++ (sub.Middlewares ++ [sub.Handler]))
    else if ty = ApplicationCommandOptionSubCommandGroup then
      match options with
      | [] => .error .indexOutOfRange
      | first :: _ =>
        match subcommand with
        | none => .error .nilDereference
        | some sub => getSubcommand (some sub) first (parent ++ sub.Middlewares)
    else
      .ok (some cmd, none, parent ++ [cmd.Handler])

/-- The data of an application-command interaction (`ApplicationCommandData()`). -/
structure ApplicationCommandInteractionData where
  Name : String
  Options : List DataOption
deriving Repr

/-- The struct `discordgo.Interaction` as far as the router reads it. -/
structure Interaction where
  Type_ : Nat
  Data : ApplicationCommandInteractionData
deriving Repr

/-- The type `OptionsMap`. -/
abbrev OptionsMap := List (String × DataOption)

/-- `makeOptionMap`: each option is stored under its name, in order. -/
def makeOptionMap (options : List DataOption) : OptionsMap :=
  options.foldl (fun m option => mapSet m option.Name option) []

/-- The struct `Context` (the embedded session is an external collaborator, left out). -/
structure Context where
  Caller : Command
  Interaction : bot.Interaction
  Options : OptionsMap
  handlers : List Handler

/-- `NewContext`. -/
def NewContext (caller : Command) (i : Interaction) (parent : Option DataOption)
    (handlers : List Handler) : Context :=
  let options := match parent with
    | some p => p.Options
    | none => i.Data.Options
  { Caller := caller, Interaction := i, Options := makeOptionMap options, handlers := handlers }

/-- Lines 99-117 of `HandleInteraction`: the context that is built before
`ctx.Next()` is called; `.ok none` when the invocation is dropped. -/
def HandleInteraction.context (r : Option Router) (i : Interaction) :
    Except Panic (Option Context) :=
  if i.Type_ ≠ InteractionApplicationCommand then .ok none
  else
    match Router.Get r i.Data.Name with
    | none => .ok none
    | some cmd =>
      let resolved : Except Panic Resolved :=
        match i.Data.Options with
        | [] => .ok (some cmd, none, cmd.Middlewares ++ [cmd.Handler])
        | first :: _ => getSubcommand (some cmd) first cmd.Middlewares
      match resolved with
      | .error p => .error p
      | .ok (none, _, _) => .ok none
      | .ok (some c, parent, handlers) => .ok (some (NewContext c i parent handlers))

/-! ## Driving a handler chain -/

/-- Everything outside the context that a dispatch changes: the events so far and whether a
panic is unwinding the goroutine. -/
structure World where
  events : List Event
  panicked : Bool
deriving DecidableEq, Repr

/-- The environment of a run: it takes the decision of every `Body.branch` from the events
observed so far. -/
abbrev Env := List Event → Bool

/-- The part of a context that `Next` reads and writes (its `handlers` queue) together with
the world. -/
structure Cursor where
  handlers : List Handler
  world : World
deriving DecidableEq, Repr

/-- Records one event in the world of a cursor. -/
def Cursor.record (s : Cursor) (e : Event) : Cursor :=
  { s with world := { s.world with events := s.world.events ++ [e] } }

/-- Runs the body of a handler on the context; `next` is what `ctx.Next()` does.  A panic
raised inside `ctx.Next()` unwinds the rest of the body. -/
def runBody (env : Env) (next : Cursor → Cursor) : Body → Cursor → Cursor
  | .ret, s => s
  | .next k, s =>
    let s1 := next s
    if s1.world.panicked then s1 else runBody env next k s1
  | .work label k, s => runBody env next k (s.record (.work label))
  | .branch t e, s => if env s.world.events then runBody env next t s else runBody env next e s

/-- `Next` with a bound on the nesting depth of `Next` calls that do pop a handler; a queue
of length `n` never needs more than `n`. -/
def nextFuel (env : Env) : Nat → Cursor → Cursor
  | 0, s => s
  | n + 1, s =>
    match s.handlers with
    | [] => s
    | none :: rest => { handlers := rest, world := { s.world with panicked := true } }
    | some handler :: rest =>
      runBody env (nextFuel env n) handler.body
        (Cursor.record { handlers := rest, world := s.world } (.invoke handler.id))

/-- The body shared by `Context.Next` and `MessageContext.Next`: nothing on an empty queue,
otherwise the first handler is popped and invoked on the same context (a nil handler
panics on the call). -/
def Cursor.Next (env : Env) (s : Cursor) : Cursor :=
  nextFuel env s.handlers.length s

/-- `Context.Next`. -/
def Context.Next (env : Env) (ctx : Context) (w : World) : Context × World :=
  let s := Cursor.Next env { handlers := ctx.handlers, world := w }
  ({ ctx with handlers := s.handlers }, s.world)

/-- `HandleInteraction`: builds the context and drives it with one `Next`. -/
def HandleInteraction (env : Env) (r : Option Router) (i : Interaction) (w : World) :
    World :=
  match HandleInteraction.context r i with
  | .error _ => { w with panicked := true }
  | .ok none => w
  | .ok (some ctx) => (ctx.Next env w).2

/-! ## Free-text invocations -/

/-- The struct `discordgo.Message` as far as it matters here. -/
structure Message where
  ID : String
  ChannelID : String
  Content : String
deriving DecidableEq, Repr

/-- The struct `MessageContext`. -/
structure MessageContext where
  Caller : Command
  Message : bot.Message
  handlers : List MessageHandler

/-- `NewMessageContext`. -/
def NewMessageContext (caller : Command) (m : Message) (handlers : List MessageHandler) :
    MessageContext :=
  { Caller := caller, Message := m, handlers := handlers }

/-- `MessageContext.Next`. -/
def MessageContext.Next (env : Env) (ctx : MessageContext) (w : World) :
    MessageContext × World :=
  let s := Cursor.Next env { handlers := ctx.handlers, world := w }
  ({ ctx with handlers := s.handlers }, s.world)

mutual
/-- `Router.getMessageHandlers` (the receiver is not used by the code). -/
def getMessageHandlers : Command → List MessageHandler
  | ⟨_, _, _, _, messageHandler, subCommands⟩ =>
    (match messageHandler with
      | some h => [some h]
      | none => []) ++
    (match subCommands with
      | none => []
      | some ⟨commands⟩ => getMessageHandlers.range commands)
/-- The loop `for _, cmd := range cmd.SubCommands.List()` of `getMessageHandlers`. -/
def getMessageHandlers.range : List (String × Command) → List MessageHandler
  | [] => []
  | (_, cmd) :: rest => getMessageHandlers cmd ++ getMessageHandlers.range rest
end

/-- The loop of `HandleMessage` over the entries of `r.commands`; the first component
collects the contexts built by `NewMessageContext`. -/
def HandleMessage.range (env : Env) (m : Message) :
    List (String × Command) → List MessageContext × World → List MessageContext × World
  | [], acc => acc
  | (_, cmd) :: rest, (built, w) =>
    let handlers := getMessageHandlers cmd
    if handlers.length > 0 then
      let ctx := NewMessageContext cmd m handlers
      let w1 := (ctx.Next env w).2
      if w1.panicked then (built ++ [ctx], w1)
      else HandleMessage.range env m rest (built ++ [ctx], w1)
    else HandleMessage.range env m rest (built, w)

/-- `HandleMessage`: the contexts it builds and the world it leaves. -/
def HandleMessage (env : Env) (r : Router) (m : Message) (w : World) :
    List MessageContext × World :=
  HandleMessage.range env m r.commands ([], w)

/-- The handlers entered, in order, according to the events. -/
def invoked (events : List Event) : List Nat :=
  events.filterMap (fun e => match e with
    | .invoke id => some id
    | .work _ => none)

/-- The identities of the non-nil handlers of a chain, in chain order. -/
def handlerIds (chain : List Handler) : List Nat :=
  chain.filterMap (fun h => h.map HandlerFunc.id)

/-! ## Resolution paths (used to state the dispatch theorems) -/
/-- The middlewares of a list of groups, outer to inner. -/
def groupMiddlewares : List Command → List Handler
  | [] => []
  | g :: gs => g.Middlewares ++ groupMiddlewares gs

/-- The option `opt`, looked up in the sub-registry of `cmd`, resolves through the groups
`groups` (outer to inner) to the leaf sub-command `leaf`, selected by the option `leafOpt`. -/
def ResolvesThrough : List Command → Command → DataOption → Command → DataOption → Prop
  | [], cmd, opt, leaf, leafOpt =>
    opt.Type_ = ApplicationCommandOptionSubCommand ∧
      Router.Get cmd.SubCommands opt.Name = some leaf ∧ leafOpt = opt
  | g :: gs, cmd, opt, leaf, leafOpt =>
    opt.Type_ = ApplicationCommandOptionSubCommandGroup ∧
      Router.Get cmd.SubCommands opt.Name = some g ∧
      ∃ first rest, opt.Options = first :: rest ∧ ResolvesThrough gs g first leaf leafOpt

/-- The `gpt` sub-command of `chat` (commands/gpt/command.go): a handler and a free-text
handler, no middleware. -/
def exampleGpt : Command :=
  { Name := "gpt", Description := "Start conversation with ChatGPT",
    Handler := some ⟨1, .work 1 .ret⟩, Middlewares := [],
    MessageHandler := some ⟨2, .work 2 .ret⟩, SubCommands := none }

/-- The `dalle` sub-command of `image` (commands/dalle/command.go): two middlewares and a
handler. -/
def exampleDalle : Command :=
  { Name := "dalle", Description := "Generate creative images",
    Handler := some ⟨5, .work 5 .ret⟩,
    Middlewares := [some ⟨3, .work 3 (.next .ret)⟩, some ⟨4, .branch (.next .ret) (.work 4 .ret)⟩],
    MessageHandler := none, SubCommands := none }

/-- The `chat` command (commands/chat.go): no handler of its own, one sub-command. -/
def exampleChat : Command :=
  { Name := "chat", Description := "Start conversation with LLM", Handler := none,
    Middlewares := [], MessageHandler := none, SubCommands := some (NewRouter [exampleGpt]) }

/-- The `image` command (commands/image.go). -/
def exampleImage : Command :=
  { Name := "image", Description := "Generate creative images from textual descriptions",
    Handler := none, Middlewares := [], MessageHandler := none,
    SubCommands := some (NewRouter [exampleDalle]) }

/-- The registry with the commands chat and image. -/
def exampleRouter : Router := NewRouter [exampleChat, exampleImage]

/-- A second command named `chat`, different from `exampleChat`. -/
def exampleChatAgain : Command :=
  { Name := "chat", Description := "registered later", Handler := some ⟨9, .ret⟩,
    Middlewares := [], MessageHandler := none, SubCommands := none }

/-- Starting at the option `opt` of the command `cmd`, the options select the registered
groups `groups` (outer to inner); `last` is the innermost command reached and `nxt` the
option that is looked at next, in the sub-registry of `last`. -/
def DescendsThrough : List Command → Command → DataOption → Command → DataOption → Prop
  | [], cmd, opt, last, nxt => last = cmd ∧ nxt = opt
  | g :: gs, cmd, opt, last, nxt =>
    opt.Type_ = ApplicationCommandOptionSubCommandGroup ∧
      Router.Get cmd.SubCommands opt.Name = some g ∧
      ∃ first rest, opt.Options = first :: rest ∧ DescendsThrough gs g first last nxt

/-- The `info` command (commands/info.go): a handler, no sub-commands. -/
def exampleInfo : Command :=
  { Name := "info", Description := "Show information about current version of Open AI bot",
    Handler := some ⟨6, .work 6 .ret⟩, Middlewares := [], MessageHandler := none,
    SubCommands := none }

/-- The registry of main.go: chat, image and info. -/
def exampleBotRouter : Router := NewRouter [exampleChat, exampleImage, exampleInfo]

/-- A leaf two groups deep, with middlewares on every level. -/
def exampleLeaf : Command :=
  { Name := "add", Description := "leaf", Handler := some ⟨40, .work 40 .ret⟩,
    Middlewares := [some ⟨41, .next .ret⟩], MessageHandler := some ⟨42, .ret⟩,
    SubCommands := none }

/-- The inner group of the nested example. -/
def exampleInnerGroup : Command :=
  { Name := "users", Description := "inner group", Handler := some ⟨30, .work 30 .ret⟩,
    Middlewares := [some ⟨31, .next .ret⟩], MessageHandler := none,
    SubCommands := some (NewRouter [exampleLeaf]) }

/-- The outer group of the nested example. -/
def exampleOuterGroup : Command :=
  { Name := "manage", Description := "outer group", Handler := some ⟨20, .work 20 .ret⟩,
    Middlewares := [some ⟨21, .next .ret⟩, some ⟨22, .next .ret⟩],
    MessageHandler := some ⟨23, .ret⟩,
    SubCommands := some (NewRouter [exampleInnerGroup]) }

/-- The top-level command of the nested example. -/
def exampleAdmin : Command :=
  { Name := "admin", Description := "top level", Handler := some ⟨10, .work 10 .ret⟩,
    Middlewares := [some ⟨11, .next .ret⟩], MessageHandler := none,
    SubCommands := some (NewRouter [exampleOuterGroup]) }

/-- An option of type string (`discordgo.ApplicationCommandOptionString` is 3). -/
def examplePrompt : DataOption :=
  { Name := "prompt", Type_ := 3, Value := "hello", Options := [] }

/-- The option selecting the leaf `add`. -/
def exampleAddOption : DataOption :=
  { Name := "add", Type_ := ApplicationCommandOptionSubCommand, Value := "",
    Options := [examplePrompt] }

/-- The option selecting the inner group `users`, then `add`. -/
def exampleUsersOption : DataOption :=
  { Name := "users", Type_ := ApplicationCommandOptionSubCommandGroup, Value := "",
    Options := [exampleAddOption] }

/-- The option selecting the outer group `manage`, then `users`, then `add`. -/
def exampleManageOption : DataOption :=
  { Name := "manage", Type_ := ApplicationCommandOptionSubCommandGroup, Value := "",
    Options := [exampleUsersOption] }

/-- The invocation `/admin manage users add prompt:hello`. -/
def exampleNestedInvocation : Interaction :=
  { Type_ := InteractionApplicationCommand,
    Data := { Name := "admin", Options := [exampleManageOption] } }

/-- The invocation `/admin manage users` whose innermost option is a plain string. -/
def exampleGroupInvocation : Interaction :=
  { Type_ := InteractionApplicationCommand,
    Data := { Name := "admin", Options := [
      { Name := "manage", Type_ := ApplicationCommandOptionSubCommandGroup, Value := "",
        Options := [
          { Name := "users", Type_ := ApplicationCommandOptionSubCommandGroup, Value := "",
            Options := [examplePrompt] }] }] } }

/-- An application-command invocation of `name` with the given top-level options. -/
def exampleInvocation (name : String) (options : List DataOption) : Interaction :=
  { Type_ := InteractionApplicationCommand, Data := { Name := name, Options := options } }

/-- The body never calls `ctx.Next()`, whatever the environment decides. -/
def Body.neverCallsNext : Body → Bool
  | .ret => true
  | .next _ => false
  | .work _ k => k.neverCallsNext
  | .branch t e => t.neverCallsNext && e.neverCallsNext

/-- The body calls `ctx.Next()` exactly once, whatever the environment decides. -/
def Body.callsNextOnce : Body → Bool
  | .ret => false
  | .next k => k.neverCallsNext
  | .work _ k => k.callsNextOnce
  | .branch t e => t.callsNextOnce && e.callsNextOnce

/-- From `s` to `t` a prefix of the queue was consumed, in order: `t` holds the rest of the
queue, the handlers entered in between are the non-nil ones of that prefix, and a nil
handler in the prefix has raised a panic. -/
def Consumed (s t : Cursor) : Prop :=
  ∃ k, k ≤ s.handlers.length ∧ t.handlers = s.handlers.drop k ∧
    invoked t.world.events = invoked s.world.events ++ handlerIds (s.handlers.take k) ∧
    (none ∈ s.handlers.take k → t.world.panicked = true)

/-- Two cursors agree on the queue, on the handlers entered and on the panic flag (they may
differ in the work recorded). -/
def Same (s t : Cursor) : Prop :=
  s.handlers = t.handlers ∧ invoked s.world.events = invoked t.world.events ∧
    s.world.panicked = t.world.panicked

/-- A middleware that does its work and passes on (`imageInteractionResponseMiddleware`). -/
def exampleAck : HandlerFunc := ⟨3, .work 3 (.next .ret)⟩

/-- A middleware that rejects: it reports and returns without `Next`. -/
def exampleReject : HandlerFunc := ⟨4, .work 4 .ret⟩

/-- A terminal handler. -/
def exampleImageHandler : HandlerFunc := ⟨5, .work 5 .ret⟩

mutual
/-- The commands of a tree in pre-order: the command itself, then the pre-order of each of
its sub-commands, in the order in which its sub-registry lists them. -/
def preorder : Command → List Command
  | ⟨name, description, handler, middlewares, messageHandler, subCommands⟩ =>
    ⟨name, description, handler, middlewares, messageHandler, subCommands⟩ ::
      (match subCommands with
        | none => []
        | some ⟨commands⟩ => preorder.range commands)
/-- The pre-order of each command of a registry, one after the other. -/
def preorder.range : List (String × Command) → List Command
  | [] => []
  | (_, cmd) :: rest => preorder cmd ++ preorder.range rest
end

/-- One message context for each entry of the registry whose harvested handler list is not
empty, in the order of the entries. -/
def contextsFor (m : Message) (commands : List (String × Command)) : List MessageContext :=
  commands.filterMap (fun entry =>
    if (getMessageHandlers entry.2).length > 0 then
      some (NewMessageContext entry.2 m (getMessageHandlers entry.2))
    else none)

/-- Drives each context once with `Next`, one after the other. -/
def driveAll (env : Env) (contexts : List MessageContext) (w : World) : World :=
  contexts.foldl (fun w ctx => (ctx.Next env w).2) w

end bot

/-! # Package gpt -/

namespace gpt

/-! ## Models and token accounting (tiktoken.go, utils.go) -/

/-- The constant `openai.GPT3Dot5Turbo0301`. -/
def GPT3Dot5Turbo0301 : String := "gpt-3.5-turbo-0301"

/-- The constant `openai.GPT3Dot5Turbo`. -/
def GPT3Dot5Turbo : String := "gpt-3.5-turbo"

/-- The constant `openai.GPT3Dot5Turbo0613`. -/
def GPT3Dot5Turbo0613 : String := "gpt-3.5-turbo-0613"

/-- The constant `openai.GPT3Dot5Turbo16K`. -/
def GPT3Dot5Turbo16K : String := "gpt-3.5-turbo-16k"

/-- The constant `openai.GPT3Dot5Turbo16K0613`. -/
def GPT3Dot5Turbo16K0613 : String := "gpt-3.5-turbo-16k-0613"

/-- The constant `openai.GPT4`. -/
def GPT4 : String := "gpt-4"

/-- The constant `openai.GPT40314`. -/
def GPT40314 : String := "gpt-4-0314"

/-- The constant `openai.GPT40613`. -/
def GPT40613 : String := "gpt-4-0613"

/-- The constant `openai.GPT432K`. -/
def GPT432K : String := "gpt-4-32k"

/-- The constant `openai.GPT432K0314`. -/
def GPT432K0314 : String := "gpt-4-32k-0314"

/-- The constant `openai.GPT432K0613`. -/
def GPT432K0613 : String := "gpt-4-32k-0613"

/-- The struct `openai.ChatCompletionMessage` as far as the code reads it. -/
structure ChatCompletionMessage where
  Role : String
  Content : String
  Name : String
deriving DecidableEq, Repr

/-- Modelled from the spec: the struct `MessagesCacheData`, whose declaration is not among
the sources.  The fields are those that utils.go and handler.go read and write: the turns,
the optional system turn, the model, the optional temperature (a `*float32`, kept as an
uninterpreted value) and the cached token count. -/
structure MessagesCacheData where
  Messages : List ChatCompletionMessage
  SystemMessage : Option ChatCompletionMessage
  Model : String
  Temperature : Option Nat
  TokenCount : Int
deriving DecidableEq, Repr

/-- The external tokenizer: `tok model text` is the number of ids that the codec chosen for
`model` (`tokenizer.ForModel`, or `cl100k_base` when that fails) returns from `Encode text`.
It is a parameter of every function that counts tokens. -/
abbrev Tokenizer := String → String → Nat

/-- `_tokensConfiguration`: `(ok, tokensPerMessage, tokensPerName)`. -/
def _tokensConfiguration (model : String) : Bool × Int × Int :=
  if model = GPT3Dot5Turbo0301 then (true, 4, -1)
  else if model = GPT3Dot5Turbo ∨ model = GPT3Dot5Turbo0613 ∨ model = GPT3Dot5Turbo16K ∨
      model = GPT3Dot5Turbo16K0613 ∨ model = GPT4 ∨ model = GPT40314 ∨ model = GPT40613 ∨
      model = GPT432K0314 ∨ model = GPT432K0613 then (true, 3, 1)
  else (false, 0, 0)

/-- `_countMessageTokens`; `enc text` is `len` of the ids of `enc.Encode(text)`. -/
def _countMessageTokens (enc : String → Nat) (tokensPerMessage tokensPerName : Int)
    (message : ChatCompletionMessage) : Int :=
  let tokens := tokensPerMessage
  let tokens := tokens + (enc message.Content : Int)
  let tokens := tokens + (enc message.Role : Int)
  if message.Name ≠ "" then tokens + tokensPerName + (enc message.Name : Int) else tokens

/-- `countMessageTokens`: `none` is the nil `*int`. -/
def countMessageTokens (tok : Tokenizer) (message : ChatCompletionMessage) (model : String) :
    Option Int :=
  match _tokensConfiguration model with
  | (false, _, _) => none
  | (true, tokensPerMessage, tokensPerName) =>
    some (_countMessageTokens (tok model) tokensPerMessage tokensPerName message)

/-- `countMessagesTokens`. -/
def countMessagesTokens (tok : Tokenizer) (messages : List ChatCompletionMessage)
    (model : String) : Option Int :=
  match _tokensConfiguration model with
  | (false, _, _) => none
  | (true, tokensPerMessage, tokensPerName) =>
    let tokens := messages.foldl
      (fun tokens message =>
        tokens + _countMessageTokens (tok model) tokensPerMessage tokensPerName message) 0
    some (tokens + 3)

/-- `countAllMessagesTokens`: the system turn is appended to the turns. -/
def countAllMessagesTokens (tok : Tokenizer) (systemMessage : Option ChatCompletionMessage)
    (messages : List ChatCompletionMessage) (model : String) : Option Int :=
  match systemMessage with
  | some system => countMessagesTokens tok (messages ++ [system]) model
  | none => countMessagesTokens tok messages model

/-- The constant `gptTruncateLimitGPT3Dot5Turbo0301`. -/
def gptTruncateLimitGPT3Dot5Turbo0301 : Int := 3500

/-- The constant `gptTruncateLimitGPT40314`. -/
def gptTruncateLimitGPT40314 : Int := 6500

/-- The constant `gptTruncateLimitGPT432K0314`. -/
def gptTruncateLimitGPT432K0314 : Int := 30500

/-- `modelTruncateLimit`: `none` is the nil `*int`. -/
def modelTruncateLimit (model : String) : Option Int :=
  if model = GPT3Dot5Turbo ∨ model = GPT3Dot5Turbo0301 then
    some gptTruncateLimitGPT3Dot5Turbo0301
  else if model = GPT4 ∨ model = GPT40314 then some gptTruncateLimitGPT40314
  else if model = GPT432K ∨ model = GPT432K0314 then some gptTruncateLimitGPT432K0314
  else none

/-- The loop of `adjustMessageTokens` on the fields it changes, the turns and the cached
count.  Reading `Messages[0]` of an empty slice panics; a turn is removed before its tokens
are counted, and the loop returns when they cannot be counted. -/
def adjustMessageTokens.loop (tok : Tokenizer) (model : String) (truncateLimit : Int) :
    List ChatCompletionMessage → Int → Except bot.Panic (List ChatCompletionMessage × Int)
  | [], tokenCount =>
    if tokenCount > truncateLimit then .error .indexOutOfRange else .ok ([], tokenCount)
  | message :: rest, tokenCount =>
    if tokenCount > truncateLimit then
      match countMessageTokens tok message model with
      | none => .ok (rest, tokenCount)
      | some removedTokens =>
        adjustMessageTokens.loop tok model truncateLimit rest (tokenCount - removedTokens)
    else .ok (message :: rest, tokenCount)

/-- `adjustMessageTokens`: the entry it leaves, or the panic it raises. -/
def adjustMessageTokens (tok : Tokenizer) (cacheItem : MessagesCacheData) :
    Except bot.Panic MessagesCacheData :=
  match modelTruncateLimit cacheItem.Model with
  | none => .ok cacheItem
  | some truncateLimit =>
    match adjustMessageTokens.loop tok cacheItem.Model truncateLimit cacheItem.Messages
        cacheItem.TokenCount with
    | .error p => .error p
    | .ok (messages, tokenCount) =>
      .ok { cacheItem with Messages := messages, TokenCount := tokenCount }

/-- `isCacheItemWithinTruncateLimit`: the pair it returns and the entry it leaves. -/
def isCacheItemWithinTruncateLimit (tok : Tokenizer) (cacheItem : MessagesCacheData) :
    (Bool × Int) × MessagesCacheData :=
  match modelTruncateLimit cacheItem.Model with
  | none => ((true, 0), cacheItem)
  | some truncateLimit =>
    match countAllMessagesTokens tok cacheItem.SystemMessage cacheItem.Messages
        cacheItem.Model with
    | none => ((true, 0), cacheItem)
    | some tokens =>
      ((decide (tokens ≤ truncateLimit), tokens), { cacheItem with TokenCount := tokens })

/-- The sum of `countMessageTokens` over a list of turns (a turn that cannot be counted adds
nothing). -/
def tokensOf (tok : Tokenizer) (model : String) (messages : List ChatCompletionMessage) :
    Int :=
  (messages.map (fun message => (countMessageTokens tok message model).getD 0)).sum

/-- The models for which `_tokensConfiguration` has tokensPerMessage 3 and tokensPerName 1. -/
def schemeThreeOne : List String :=
  [GPT3Dot5Turbo, GPT3Dot5Turbo0613, GPT3Dot5Turbo16K, GPT3Dot5Turbo16K0613, GPT4, GPT40314,
    GPT40613, GPT432K0314, GPT432K0613]

/-- The models that have a truncate limit. -/
def limitedModels : List String :=
  [GPT3Dot5Turbo, GPT3Dot5Turbo0301, GPT4, GPT40314, GPT432K, GPT432K0314]

/-- A tokenizer for the examples: one hundred tokens for each character. -/
def exampleTokenizer : Tokenizer := fun _ text => 100 * text.length

/-- Three user turns that measure 1403, 1003 and 1703 tokens with `exampleTokenizer`. -/
def exampleTurns : List ChatCompletionMessage :=
  [⟨"user", "aaaaaaaaaa", ""⟩, ⟨"user", "bbbbbb", ""⟩, ⟨"user", "ccccccccccccc", ""⟩]

/-- An entry of model gpt-3.5-turbo (limit 3500) with the three turns and the cached count
4200. -/
def exampleEntry : MessagesCacheData :=
  { Messages := exampleTurns, SystemMessage := none, Model := GPT3Dot5Turbo,
    Temperature := none, TokenCount := 4200 }

/-! ## Splitting a reply into Discord messages (helpers.go) -/

/-- The constant `discordMaxMessageLength`. -/
def discordMaxMessageLength : Nat := 2000

/-- Go `len(s)` of a string: its length in bytes (the strings are valid UTF-8). -/
def len (s : String) : Nat := s.utf8ByteSize

/-- `unicode.IsSpace`: the white space characters around which `strings.Fields` splits. -/
def isSpace (c : Char) : Bool :=
  c.toNat = 0x09 || c.toNat = 0x0A || c.toNat = 0x0B || c.toNat = 0x0C || c.toNat = 0x0D ||
  c.toNat = 0x20 || c.toNat = 0x85 || c.toNat = 0xA0 || c.toNat = 0x1680 ||
  (0x2000 ≤ c.toNat && c.toNat ≤ 0x200A) || c.toNat = 0x2028 || c.toNat = 0x2029 ||
  c.toNat = 0x202F || c.toNat = 0x205F || c.toNat = 0x3000

/-- The scan of `strings.Fields`: `word` holds, in reverse, the characters of the word that
is being read. -/
def Fields.scan : List Char → List Char → List String
  | [], word => if word.isEmpty then [] else [String.mk word.reverse]
  | c :: rest, word =>
    if isSpace c then
      if word.isEmpty then Fields.scan rest [] else String.mk word.reverse :: Fields.scan rest []
    else Fields.scan rest (c :: word)

/-- The library function `strings.Fields`: the maximal runs of characters that are not white
space, in order. -/
def Fields (s : String) : List String := Fields.scan s.data []

/-- The loop of `splitMessage` over the words, with the variables `messageParts` and
`currentMessage`; after the loop `currentMessage` is appended to the parts. -/
def splitMessage.loop : List String → List String → String → List String
  | [], messageParts, currentMessage => messageParts ++ [currentMessage]
  | word :: words, messageParts, currentMessage =>
    if len currentMessage + len word + 1 > discordMaxMessageLength then
      splitMessage.loop words (messageParts ++ [currentMessage]) (word ++ " ")
    else
      splitMessage.loop words messageParts (currentMessage ++ (word ++ " "))

/-- `splitMessage`. -/
def splitMessage (message : String) : List String :=
  if len message ≤ discordMaxMessageLength then [message]
  else splitMessage.loop (Fields message) [] ""

/-- The concatenation of a list of strings, in order. -/
def concat : List String → String
  | [] => ""
  | s :: rest => s ++ concat rest

/-- The words of a list, each followed by one space, in one string. -/
def spaced : List String → String
  | [] => ""
  | word :: words => (word ++ " ") ++ spaced words

/-- A word: a non-empty string without white space. -/
def IsWord (w : String) : Prop := w.data ≠ [] ∧ ∀ c ∈ w.data, isSpace c = false

/-- The bytes that the words of a list take when each is followed by one space. -/
def spacedLen (words : List String) : Nat := (words.map (fun w => len w + 1)).sum

/-- A text of 2001 bytes without white space: one word. -/
def exampleLongWord : String := String.mk (List.replicate 2001 'a')

/-- A text of 2001 bytes: the letter a and 2000 spaces. -/
def exampleTrailingSpaces : String := "a" ++ String.mk (List.replicate 2000 ' ')

/-- A text of 3000 bytes: 500 times the word lorem, each followed by a space. -/
def exampleLongText : String := spaced (List.replicate 500 "lorem")

/-! ## Options of the chat command, context data and interaction replies
(command_option.go, handler.go, utils.go, pkg/utils/url.go) -/

/-- The type `gptCommandOptionType` (a `uint8`). -/
abbrev gptCommandOptionType := Nat

/-- The constant `gptCommandOptionPrompt`. -/
def gptCommandOptionPrompt : gptCommandOptionType := 1

/-- The constant `gptCommandOptionContext`. -/
def gptCommandOptionContext : gptCommandOptionType := 2

/-- The constant `gptCommandOptionContextFile`. -/
def gptCommandOptionContextFile : gptCommandOptionType := 3

/-- The constant `gptCommandOptionModel`. -/
def gptCommandOptionModel : gptCommandOptionType := 4

/-- The constant `gptCommandOptionTemperature`. -/
def gptCommandOptionTemperature : gptCommandOptionType := 5

/-- The method `gptCommandOptionType.string`. -/
def gptCommandOptionType.string (t : gptCommandOptionType) : String :=
  if t = gptCommandOptionPrompt then "prompt"
  else if t = gptCommandOptionContext then "context"
  else if t = gptCommandOptionContextFile then "context-file"
  else if t = gptCommandOptionModel then "model"
  else if t = gptCommandOptionTemperature then "temperature"
  else "ApplicationCommandOptionType(" ++ toString t ++ ")"

/-- The method `gptCommandOptionType.humanReadableString`. -/
def gptCommandOptionType.humanReadableString (t : gptCommandOptionType) : String :=
  if t = gptCommandOptionPrompt then "Prompt"
  else if t = gptCommandOptionContext then "Context"
  else if t = gptCommandOptionContextFile then "Context file"
  else if t = gptCommandOptionModel then "Model"
  else if t = gptCommandOptionTemperature then "Temperature"
  else "ApplicationCommandOptionType(" ++ toString t ++ ")"

/-- The struct `url.URL` as far as `IsURL` reads it. -/
structure URL where
  Scheme : String
  Host : String
deriving DecidableEq, Repr

/-- The library function `url.Parse`, a parameter: the URL or the error. -/
abbrev UrlParser := String → Except String URL

/-- `utils.IsURL`. -/
def IsURL (parse : UrlParser) (str : String) : Bool :=
  match parse str with
  | .error _ => false
  | .ok u => u.Scheme != "" && u.Host != ""

/-- The `http.Client`, a parameter: `Get` of a URL gives an error or a response, and reading
the body of the response (`io.ReadAll`) gives an error or the content. -/
abbrev HttpClient := String → Except String (Except String String)

/-- What `getUrlData` and `getContentOrURLData` return, the content and the error (`none` is
the nil error), together with the URLs that were requested on the way. -/
structure Fetched where
  content : String
  err : Option String
  requests : List String
deriving DecidableEq, Repr

/-- `getUrlData`. -/
def getUrlData (client : HttpClient) (url : String) : Fetched :=
  match client url with
  | .error e => { content := "", err := some e, requests := [url] }
  | .ok body =>
    match body with
    | .error e => { content := "", err := some e, requests := [url] }
    | .ok content => { content := content, err := none, requests := [url] }

/-- `getContentOrURLData`: the named results `content` and `err` keep their zero values when
the string is not a URL. -/
def getContentOrURLData (parse : UrlParser) (client : HttpClient) (s : String) : Fetched :=
  if IsURL parse s then getUrlData client s
  else { content := "", err := none, requests := [] }

/-- The constant `gptContextOptionMaxLength`. -/
def gptContextOptionMaxLength : Nat := 1024

/-- The constant `openai.ChatMessageRoleSystem`. -/
def ChatMessageRoleSystem : String := "system"

/-- The struct `discordgo.MessageEmbedField` as far as the code uses it. -/
structure MessageEmbedField where
  Name : String
  Value : String
deriving DecidableEq, Repr

/-- The struct `discordgo.MessageEmbed` as far as the code uses it. -/
structure MessageEmbed where
  Description : String
  Fields : List MessageEmbedField
deriving DecidableEq, Repr

/-- How the context step of `chatGPTHandler` ends: with an error embed sent to the user and
a return, or with the entry and the embed fields it goes on with. -/
inductive ContextStep where
  | rejected (title description : String) : ContextStep
  | accepted (cacheItem : MessagesCacheData) (fields : List MessageEmbedField) : ContextStep
deriving DecidableEq, Repr

/-- Lines 158-182 of `chatGPTHandler`: the `else if` branch that is taken when no
context-file option is given.  `option.StringValue()` is the value of the option (the
schema of the command declares it as a string). -/
def chatGPTHandler.contextOption (options : bot.OptionsMap) (cacheItem : MessagesCacheData)
    (fields : List MessageEmbedField) : ContextStep :=
  match bot.mapGet options (gptCommandOptionType.string gptCommandOptionContext) with
  | some option =>
    let context := option.Value
    if len context ≥ gptContextOptionMaxLength then
      .rejected "Failed to process command"
        ("Provided context is above the limit of " ++ toString gptContextOptionMaxLength ++
          " characters. Please use `context-file` option instead")
    else
      .accepted
        { cacheItem with
          SystemMessage := some { Role := ChatMessageRoleSystem, Content := context, Name := "" } }
        (fields ++ [{ Name := gptCommandOptionType.humanReadableString gptCommandOptionContext,
                      Value := context }])
  | none => .accepted cacheItem fields

/-- What `parseInteractionReply` returns. -/
structure ParsedReply where
  prompt : String
  context : String
  model : String
  temperature : Option Nat
deriving DecidableEq, Repr

/-- The body of the inner loop of `parseInteractionReply`, the switch on the name of a
field.  `parseFloat` stands for `strconv.ParseFloat(value, 32)` followed by the conversion
to `float32`; `none` is its error, on which the loop continues. -/
def parseInteractionReply.field (parseFloat : String → Option Nat) (acc : ParsedReply)
    (field : MessageEmbedField) : ParsedReply :=
  if field.Name = gptCommandOptionType.humanReadableString gptCommandOptionPrompt then
    { acc with prompt := field.Value }
  else if field.Name = gptCommandOptionType.humanReadableString gptCommandOptionContext then
    if acc.context = "" then { acc with context := field.Value } else acc
  else if field.Name = gptCommandOptionType.humanReadableString gptCommandOptionContextFile then
    { acc with context := field.Value }
  else if field.Name = gptCommandOptionType.humanReadableString gptCommandOptionModel then
    { acc with model := field.Value }
  else if field.Name =
      gptCommandOptionType.humanReadableString gptCommandOptionTemperature then
    match parseFloat field.Value with
    | none => acc
    | some temp => { acc with temperature := some temp }
  else acc

/-- The body of the outer loop of `parseInteractionReply`, for one embed. -/
def parseInteractionReply.embed (parseFloat : String → Option Nat) (acc : ParsedReply)
    (embed : MessageEmbed) : ParsedReply :=
  let acc := if embed.Description ≠ "" then { acc with prompt := embed.Description } else acc
  embed.Fields.foldl (parseInteractionReply.field parseFloat) acc

/-- `parseInteractionReply` on the embeds of the message (`discordMessage.Embeds`); without
embeds the results keep their zero values. -/
def parseInteractionReply (parseFloat : String → Option Nat) (embeds : List MessageEmbed) :
    ParsedReply :=
  embeds.foldl (parseInteractionReply.embed parseFloat)
    { prompt := "", context := "", model := "", temperature := none }

/-- A URL parser for the examples: it knows one URL and finds neither scheme nor host in
any other string. -/
def exampleParse : UrlParser := fun s =>
  if s = "https://cdn.example.com/context.txt" then .ok ⟨"https", "cdn.example.com"⟩
  else .ok ⟨"", ""⟩

/-- An HTTP client for the examples: every request is answered with the same body. -/
def exampleClient : HttpClient := fun _ => .ok (.ok "You are a pirate.")

/-- A context of exactly 1024 bytes. -/
def exampleContext1024 : String := String.mk (List.replicate 1024 'c')

/-- The context after one more field, as a function of the context before it. -/
def contextAfter (context : String) (field : MessageEmbedField) : String :=
  if field.Name = "Context" then (if context = "" then field.Value else context)
  else if field.Name = "Context file" then field.Value
  else context

/-! ## The conversation cache -/

/-- Modelled from the spec: the type `MessagesCache`, the Conversation Cache, whose
declaration is not among the sources (main.go and handler.go only call it).  It is a
mapping from key to entry bounded at a fixed maximum entry count; `entries` holds the
entries in the order of their insertion, the earliest first. -/
structure MessagesCache where
  capacity : Nat
  entries : List (String × MessagesCacheData)
deriving DecidableEq, Repr

/-- Modelled from the spec: `NewMessagesCache`, the empty cache of the given maximum entry
count (the spec says nothing on the error that main.go tests). -/
def NewMessagesCache (size : Nat) : MessagesCache :=
  { capacity := size, entries := [] }

/-- Modelled from the spec: `add(key, entry)` inserts; if the cache is at capacity, it evicts
the single oldest-inserted entry first.  The cache is a mapping, so an entry already held
under the key is replaced by the new one. -/
def MessagesCache.Add (cache : MessagesCache) (key : String) (entry : MessagesCacheData) :
    MessagesCache :=
  let others := cache.entries.filter (fun held => held.1 ≠ key)
  let kept := if others.length ≥ cache.capacity then others.drop 1 else others
  { cache with entries := kept ++ [(key, entry)] }

/-- Modelled from the spec: `get(key)` returns the entry or absent; the eviction order is
the insertion order, independent of the access pattern, so the cache that a read leaves is
the cache it found. -/
def MessagesCache.Get (cache : MessagesCache) (key : String) :
    Option MessagesCacheData × MessagesCache :=
  (bot.mapGet cache.entries key, cache)

/-- Modelled from the spec: `remove(key)`. -/
def MessagesCache.Remove (cache : MessagesCache) (key : String) : MessagesCache :=
  { cache with entries := cache.entries.filter (fun held => held.1 ≠ key) }

/-- An operation on the cache: an insertion or a read. -/
inductive CacheOp where
  | add (key : String) (entry : MessagesCacheData) : CacheOp
  | get (key : String) : CacheOp
deriving DecidableEq, Repr

/-- The cache after one operation. -/
def MessagesCache.apply (cache : MessagesCache) : CacheOp → MessagesCache
  | .add key entry => cache.Add key entry
  | .get key => (cache.Get key).2

/-- The insertions among a list of operations, in order. -/
def insertionsOf : List CacheOp → List (String × MessagesCacheData)
  | [] => []
  | .add key entry :: rest => (key, entry) :: insertionsOf rest
  | .get _ :: rest => insertionsOf rest

end gpt

namespace dalle

/-! # Package dalle: the moderation middleware (middleware.go) -/

/-- The struct `openai.Result` of a moderation response as far as the code reads it. -/
structure ModerationResult where
  Flagged : Bool
deriving DecidableEq, Repr

/-- The call `client.Moderations` on a prompt, a parameter: the error of the call or the
field `Results` of the response. -/
abbrev Moderation := String → Except String (List ModerationResult)

/-- Label of the work "respond with ERROR: Failed to parse prompt option". -/
def respondParseError : Nat := 1

/-- Label of the work "follow up with the error embed on a flagged prompt". -/
def followupFlagged : Nat := 2

/-- Label of the work "respond with a deferred channel message". -/
def respondDeferred : Nat := 3

/-- `imageInteractionResponseMiddleware`: what it does on the context, given the error of
`ctx.Respond` (`none` is the nil error). -/
def imageInteractionResponseMiddleware (respondErr : Option String) : bot.Body :=
  .work respondDeferred
    (match respondErr with
      | some _ => .ret
      | none => .next .ret)

/-- `imageModerationMiddleware`: what it does on the context, given the options of the
context and the moderation call.  `promptName` is `imageCommandOptionPrompt.String()`, whose
declaration is not among the sources; `option.StringValue()` is the value of the option
(the schema of the command declares it as a string); reading `resp.Results[0]` of an empty
result list panics. -/
def imageModerationMiddleware (promptName : String) (moderation : Moderation)
    (options : bot.OptionsMap) : Except bot.Panic bot.Body :=
  match bot.mapGet options promptName with
  | none => .ok (.work respondParseError .ret)
  | some option =>
    let prompt := option.Value
    match moderation prompt with
    | .error _ => .ok (.next .ret)
    | .ok [] => .error .indexOutOfRange
    | .ok (result :: _) =>
      if result.Flagged then .ok (.work followupFlagged .ret) else .ok (.next .ret)

end dalle

/-! # Theorems -/

namespace bot


/-! ## The registry -/

theorem mapGet_mapSet_self {β : Type} (m : List (String × β)) (k : String) (v : β) :
    mapGet (mapSet m k v) k = some v := by
  induction m with
  | nil => simp [mapSet, mapGet]
  | cons e rest ih =>
    obtain ⟨k1, w⟩ := e
    by_cases h : k1 = k
    · simp [mapSet, mapGet, h]
    · simp [mapSet, mapGet, h, ih]

theorem mapGet_mapSet_of_ne {β : Type} (m : List (String × β)) (k key : String) (v : β)
    (h : k ≠ key) : mapGet (mapSet m k v) key = mapGet m key := by
  induction m with
  | nil => simp [mapSet, mapGet, h]
  | cons e rest ih =>
    obtain ⟨k1, w⟩ := e
    by_cases h1 : k1 = k
    · subst h1
      simp [mapSet, mapGet, h]
    · by_cases h2 : k1 = key
      · subst h2
        simp [mapSet, mapGet, h1]
      · simp [mapSet, mapGet, h1, h2, ih]

theorem mapGet_eq_none_iff {β : Type} (m : List (String × β)) (key : String) :
    mapGet m key = none ↔ key ∉ m.map Prod.fst := by
  induction m with
  | nil => simp [mapGet]
  | cons e rest ih =>
    obtain ⟨k1, w⟩ := e
    by_cases h : k1 = key
    · simp [mapGet, h]
    · have h2 : ¬ key = k1 := fun e => h e.symm
      simp [mapGet, h, h2, ih]

/-- What `Get` sees after one `Register`: an earlier holder of the name stays, otherwise the
new command is found under its own name. -/
theorem Get_Register (r : Router) (c : Command) (name : String) :
    Router.Get (some (Router.Register r c)) name =
      match Router.Get (some r) name with
      | some old => some old
      | none => if c.Name = name then some c else none := by
  unfold Router.Register
  cases hc : mapGet r.commands c.Name with
  | some old =>
    simp only [Router.Get]
    cases hn : mapGet r.commands name with
    | some x => rfl
    | none =>
      have : c.Name ≠ name := by
        intro e
        rw [e] at hc
        rw [hc] at hn
        cases hn
      simp [this]
  | none =>
    simp only [Router.Get]
    by_cases e : c.Name = name
    · subst e
      rw [mapGet_mapSet_self, hc]
      simp
    · rw [mapGet_mapSet_of_ne _ _ _ _ e]
      cases mapGet r.commands name <;> simp [e]

theorem Register_of_present (r : Router) (c : Command)
    (h : Router.Get (some r) c.Name ≠ none) : Router.Register r c = r := by
  unfold Router.Register
  simp only [Router.Get] at h
  cases hc : mapGet r.commands c.Name with
  | some old => rfl
  | none => exact absurd hc h

theorem Get_foldl_Register (initial : List Command) (r : Router) (name : String) :
    Router.Get (some (initial.foldl Router.Register r)) name =
      match Router.Get (some r) name with
      | some old => some old
      | none => initial.find? (fun c => decide (c.Name = name)) := by
  induction initial generalizing r with
  | nil => cases h : Router.Get (some r) name <;> simp [h]
  | cons c rest ih =>
    rw [List.foldl_cons, ih, Get_Register]
    cases Router.Get (some r) name with
    | some old => rfl
    | none =>
      by_cases e : c.Name = name
      · simp [e]
      · simp [e]

theorem Get_NewRouter (initial : List Command) (name : String) :
    Router.Get (some (NewRouter initial)) name =
      initial.find? (fun c => decide (c.Name = name)) := by
  unfold NewRouter
  rw [Get_foldl_Register]
  simp [Router.Get, mapGet]

/-- C2: registering a duplicate name is a no-op and the first registration wins.  For two
commands `c1`, `c2` of the same name, registering `c2` after `c1` leaves the whole command
map as it was after `c1`; `Get` of the name then returns `c1` when the name was free before
`c1` was registered (and the earlier holder otherwise, never `c2` in its place); `Register`
of any command whose name is present returns the router unchanged; and `Get` on
`NewRouter initial` returns the first command of that name in `initial`. -/
theorem register_duplicate_is_noop (r : Router) (c1 c2 : Command) (initial : List Command)
    (name : String) (hname : c1.Name = c2.Name) :
    Router.Register (Router.Register r c1) c2 = Router.Register r c1 ∧
    (Router.Get (some r) c1.Name = none →
      Router.Get (some (Router.Register (Router.Register r c1) c2)) c1.Name = some c1) ∧
    Router.Get (some (Router.Register (Router.Register r c1) c2)) c1.Name =
      some ((Router.Get (some r) c1.Name).getD c1) ∧
    (Router.Get (some r) c2.Name ≠ none → Router.Register r c2 = r) ∧
    Router.Get (some (NewRouter (initial ++ [c1] ++ [c2]))) c1.Name =
      some ((initial.find? (fun c => decide (c.Name = c1.Name))).getD c1) ∧
    Router.Get (some (NewRouter initial)) name =
      initial.find? (fun c => decide (c.Name = name)) := by
  have hpresent : Router.Get (some (Router.Register r c1)) c2.Name ≠ none := by
    rw [Get_Register, ← hname]
    cases Router.Get (some r) c1.Name <;> simp
  have hnoop := Register_of_present (Router.Register r c1) c2 hpresent
  have hget : Router.Get (some (Router.Register r c1)) c1.Name =
      some ((Router.Get (some r) c1.Name).getD c1) := by
    rw [Get_Register]
    cases Router.Get (some r) c1.Name <;> simp
  refine ⟨hnoop, ?_, ?_, Register_of_present r c2, ?_, Get_NewRouter initial name⟩
  · intro hfree
    rw [hnoop, hget, hfree]
    rfl
  · rw [hnoop, hget]
  · rw [Get_NewRouter]
    simp only [List.append_assoc, List.find?_append, List.find?_cons, List.find?_nil]
    cases initial.find? (fun c => decide (c.Name = c1.Name)) <;> simp

/-- C2, at a concrete input: `chat` registered twice in the empty router. -/
theorem register_duplicate_is_noop_witness :
    exampleChat.Name = exampleChatAgain.Name ∧
    Router.Get (some (Router.Register (Router.Register ⟨[]⟩ exampleChat) exampleChatAgain))
      "chat" = some exampleChat :=
  ⟨rfl, (register_duplicate_is_noop ⟨[]⟩ exampleChat exampleChatAgain [] "chat" rfl).2.1 rfl⟩

/-- C10: a nil registry behaves like an empty one (`Get` absent, `Count` 0, `List` empty,
no failure), and on a present registry `Get name` is absent exactly when the map has no
entry under `name`; for a registry made by `NewRouter` and `Register` that is exactly when
no command of that name was registered. -/
theorem nil_registry_is_empty (r : Router) (initial : List Command) (c : Command)
    (name : String) :
    Router.Get none name = none ∧ Router.Count none = 0 ∧ Router.List none = [] ∧
    Router.Get none name = Router.Get (some (NewRouter [])) name ∧
    Router.Count none = Router.Count (some (NewRouter [])) ∧
    Router.List none = Router.List (some (NewRouter [])) ∧
    (Router.Get (some r) name = none ↔ name ∉ r.commands.map Prod.fst) ∧
    (Router.Get (some (NewRouter initial)) name = none ↔ ∀ x ∈ initial, x.Name ≠ name) ∧
    (Router.Get (some (Router.Register r c)) name = none ↔
      Router.Get (some r) name = none ∧ c.Name ≠ name) := by
  refine ⟨rfl, rfl, rfl, rfl, rfl, rfl, mapGet_eq_none_iff r.commands name, ?_, ?_⟩
  · rw [Get_NewRouter]
    simp
  · rw [Get_Register]
    cases Router.Get (some r) name with
    | some old => simp
    | none => by_cases e : c.Name = name <;> simp [e]

/-! ## Structured dispatch -/

theorem group_ne_subCommand :
    ¬ ApplicationCommandOptionSubCommandGroup = ApplicationCommandOptionSubCommand := by
  decide

theorem getSubcommand_resolves (groups : List Command) :
    ∀ (cmd : Command) (opt : DataOption) (leaf : Command) (leafOpt : DataOption)
      (parent : List Handler), ResolvesThrough groups cmd opt leaf leafOpt →
      getSubcommand (some cmd) opt parent =
        .ok (some leaf, some leafOpt,
          parent ++ groupMiddlewares groups ++ leaf.Middlewares ++ [leaf.Handler]) := by
  induction groups with
  | nil =>
    intro cmd opt leaf leafOpt parent h
    obtain ⟨hty, hget, hopt⟩ := h
    obtain ⟨name, ty, value, options⟩ := opt
    simp only at hty hget
    subst hopt
    subst hty
    cases options <;> rw [getSubcommand] <;> simp [hget, groupMiddlewares]
  | cons g gs ih =>
    intro cmd opt leaf leafOpt parent h
    obtain ⟨hty, hget, first, rest, hopts, hrec⟩ := h
    obtain ⟨name, ty, value, options⟩ := opt
    simp only at hty hget hopts
    subst hopts
    subst hty
    rw [getSubcommand]
    simp only [group_ne_subCommand, hget, if_true, if_false]
    rw [ih g first leaf leafOpt _ hrec]
    simp [groupMiddlewares]

theorem getSubcommand_plain (cmd : Command) (opt : DataOption) (parent : List Handler)
    (h1 : opt.Type_ ≠ ApplicationCommandOptionSubCommand)
    (h2 : opt.Type_ ≠ ApplicationCommandOptionSubCommandGroup) :
    getSubcommand (some cmd) opt parent = .ok (some cmd, none, parent ++ [cmd.Handler]) := by
  obtain ⟨name, ty, value, options⟩ := opt
  simp only at h1 h2
  cases options <;> rw [getSubcommand] <;> simp [h1, h2]

theorem getSubcommand_descends (groups : List Command) :
    ∀ (cmd : Command) (opt : DataOption) (last : Command) (nxt : DataOption)
      (parent : List Handler), DescendsThrough groups cmd opt last nxt →
      getSubcommand (some cmd) opt parent =
        getSubcommand (some last) nxt (parent ++ groupMiddlewares groups) := by
  induction groups with
  | nil =>
    intro cmd opt last nxt parent h
    obtain ⟨hlast, hnxt⟩ := h
    subst hlast
    subst hnxt
    simp [groupMiddlewares]
  | cons g gs ih =>
    intro cmd opt last nxt parent h
    obtain ⟨hty, hget, first, rest, hopts, hrec⟩ := h
    obtain ⟨name, ty, value, options⟩ := opt
    simp only at hty hget hopts
    subst hopts
    subst hty
    rw [getSubcommand]
    simp only [group_ne_subCommand, hget, if_true, if_false]
    rw [ih g first last nxt _ hrec]
    simp [groupMiddlewares]

theorem context_of_options (r : Option Router) (i : Interaction) (top : Command)
    (first : DataOption) (rest : List DataOption)
    (hty : i.Type_ = InteractionApplicationCommand)
    (htop : Router.Get r i.Data.Name = some top)
    (hopts : i.Data.Options = first :: rest) :
    HandleInteraction.context r i =
      match getSubcommand (some top) first top.Middlewares with
      | .error p => .error p
      | .ok (none, _, _) => .ok none
      | .ok (some c, parent, handlers) => .ok (some (NewContext c i parent handlers)) := by
  simp [HandleInteraction.context, hty, htop, hopts]

/-- C8: an application-command invocation whose top-level name is not registered builds no
context, invokes no handler and raises no error: the world is left as it was. -/
theorem unknown_command_is_dropped (env : Env) (r : Option Router) (i : Interaction)
    (w : World) (hty : i.Type_ = InteractionApplicationCommand)
    (hname : Router.Get r i.Data.Name = none) :
    HandleInteraction.context r i = .ok none ∧ HandleInteraction env r i w = w := by
  have h : HandleInteraction.context r i = .ok none := by
    simp [HandleInteraction.context, hty, hname]
  exact ⟨h, by simp [HandleInteraction, h]⟩

/-- C8, at the registry with chat and image and the name `unknown`. -/
theorem unknown_command_is_dropped_witness :
    (exampleInvocation "unknown" [examplePrompt]).Type_ = InteractionApplicationCommand ∧
    Router.Get (some exampleRouter) (exampleInvocation "unknown" [examplePrompt]).Data.Name
      = none ∧
    HandleInteraction.context (some exampleRouter) (exampleInvocation "unknown" [examplePrompt])
      = .ok none ∧
    HandleInteraction (fun _ => true) (some exampleRouter)
      (exampleInvocation "unknown" [examplePrompt]) ⟨[], false⟩ = ⟨[], false⟩ :=
  ⟨rfl, rfl, unknown_command_is_dropped (fun _ => true) (some exampleRouter)
    (exampleInvocation "unknown" [examplePrompt]) ⟨[], false⟩ rfl rfl⟩

/-- C3: for a registered top-level command and an invocation without a sub-option selecting
a child (no options, or a first option that is neither a sub-command nor a sub-command
group) the context built has the command as caller, the chain `Middlewares ++ [Handler]` of
that command and the option map of the top-level options. -/
theorem dispatch_without_sub_option (r : Option Router) (i : Interaction) (cmd : Command)
    (hty : i.Type_ = InteractionApplicationCommand)
    (hcmd : Router.Get r i.Data.Name = some cmd)
    (hplain : ∀ first ∈ i.Data.Options.head?,
      first.Type_ ≠ ApplicationCommandOptionSubCommand ∧
      first.Type_ ≠ ApplicationCommandOptionSubCommandGroup) :
    HandleInteraction.context r i =
      .ok (some { Caller := cmd, Interaction := i, Options := makeOptionMap i.Data.Options,
                  handlers := cmd.Middlewares ++ [cmd.Handler] }) := by
  cases hopts : i.Data.Options with
  | nil => simp [HandleInteraction.context, hty, hcmd, hopts, NewContext]
  | cons first rest =>
    have hp := hplain first (by simp [hopts])
    rw [context_of_options r i cmd first rest hty hcmd hopts,
      getSubcommand_plain cmd first _ hp.1 hp.2]
    simp [NewContext, hopts]

/-- C3, at `/info` without options and at `/info prompt:hello` in the registry of main.go. -/
theorem dispatch_without_sub_option_witness :
    HandleInteraction.context (some exampleBotRouter) (exampleInvocation "info" []) =
      .ok (some { Caller := exampleInfo, Interaction := exampleInvocation "info" [],
                  Options := makeOptionMap [],
                  handlers := exampleInfo.Middlewares ++ [exampleInfo.Handler] }) ∧
    HandleInteraction.context (some exampleBotRouter)
        (exampleInvocation "info" [examplePrompt]) =
      .ok (some { Caller := exampleInfo,
                  Interaction := exampleInvocation "info" [examplePrompt],
                  Options := makeOptionMap [examplePrompt],
                  handlers := exampleInfo.Middlewares ++ [exampleInfo.Handler] }) :=
  ⟨dispatch_without_sub_option (some exampleBotRouter) (exampleInvocation "info" [])
      exampleInfo rfl rfl (by simp [exampleInvocation]),
   dispatch_without_sub_option (some exampleBotRouter)
      (exampleInvocation "info" [examplePrompt]) exampleInfo rfl rfl
      (by simp [exampleInvocation, examplePrompt, ApplicationCommandOptionSubCommand,
        ApplicationCommandOptionSubCommandGroup])⟩

/-- C1: when the first option of the invocation resolves through the registered groups
`g1..gN` (N may be 0) to a registered leaf sub-command, the context built has the leaf as
caller and the chain `top.Middlewares ++ g1.Middlewares ++ ... ++ gN.Middlewares ++
leaf.Middlewares ++ [leaf.Handler]`: one terminal handler, the leaf's, in last position,
after the middlewares only (no group's terminal handler is put into the chain). -/
theorem dispatch_chain_through_groups (r : Option Router) (i : Interaction)
    (top leaf : Command) (groups : List Command) (first leafOpt : DataOption)
    (rest : List DataOption)
    (hty : i.Type_ = InteractionApplicationCommand)
    (htop : Router.Get r i.Data.Name = some top)
    (hopts : i.Data.Options = first :: rest)
    (hres : ResolvesThrough groups top first leaf leafOpt) :
    ∃ ctx, HandleInteraction.context r i = .ok (some ctx) ∧
      ctx.Caller = leaf ∧
      ctx.handlers =
        top.Middlewares ++ groupMiddlewares groups ++ leaf.Middlewares ++ [leaf.Handler] ∧
      ctx.handlers.getLast? = some leaf.Handler ∧
      ctx.handlers.dropLast = top.Middlewares ++ groupMiddlewares groups ++ leaf.Middlewares ∧
      ctx.handlers.length = top.Middlewares.length + (groupMiddlewares groups).length +
        leaf.Middlewares.length + 1 := by
  refine ⟨NewContext leaf i (some leafOpt)
    (top.Middlewares ++ groupMiddlewares groups ++ leaf.Middlewares ++ [leaf.Handler]),
    ?_, rfl, rfl, ?_, ?_, ?_⟩
  · rw [context_of_options r i top first rest hty htop hopts,
      getSubcommand_resolves groups top first leaf leafOpt _ hres]
  · simp [NewContext]
  · simp [NewContext]
  · simp only [NewContext, List.length_append, List.length_singleton]

/-- C1, at `/admin manage users add` (two groups) in a registry holding `admin`. -/
theorem dispatch_chain_through_groups_witness :
    ∃ ctx, HandleInteraction.context (some (NewRouter [exampleAdmin]))
        exampleNestedInvocation = .ok (some ctx) ∧
      ctx.Caller = exampleLeaf ∧
      ctx.handlers =
        exampleAdmin.Middlewares ++ groupMiddlewares [exampleOuterGroup, exampleInnerGroup] ++
          exampleLeaf.Middlewares ++ [exampleLeaf.Handler] ∧
      ctx.handlers.getLast? = some exampleLeaf.Handler ∧
      ctx.handlers.dropLast =
        exampleAdmin.Middlewares ++ groupMiddlewares [exampleOuterGroup, exampleInnerGroup] ++
          exampleLeaf.Middlewares ∧
      ctx.handlers.length = exampleAdmin.Middlewares.length +
        (groupMiddlewares [exampleOuterGroup, exampleInnerGroup]).length +
        exampleLeaf.Middlewares.length + 1 :=
  dispatch_chain_through_groups (some (NewRouter [exampleAdmin])) exampleNestedInvocation
    exampleAdmin exampleLeaf [exampleOuterGroup, exampleInnerGroup] exampleManageOption
    exampleAddOption [] rfl rfl rfl
    ⟨rfl, rfl, exampleUsersOption, [], rfl, rfl, rfl, exampleAddOption, [], rfl, rfl, rfl, rfl⟩

/-- An option of type sub-command or sub-command-group that names a child missing from the
sub-registry of the command reached so far makes `getSubcommand` panic, at any depth. -/
theorem getSubcommand_missing_child (cmd : Command) (opt : DataOption)
    (parent : List Handler)
    (hty : opt.Type_ = ApplicationCommandOptionSubCommand ∨
      opt.Type_ = ApplicationCommandOptionSubCommandGroup)
    (hmissing : Router.Get cmd.SubCommands opt.Name = none) :
    getSubcommand (some cmd) opt parent = .error .nilDereference ∨
    getSubcommand (some cmd) opt parent = .error .indexOutOfRange := by
  obtain ⟨name, ty, value, options⟩ := opt
  simp only at hty hmissing
  rcases hty with h | h
  · subst h
    left
    cases options <;> rw [getSubcommand] <;> simp [hmissing]
  · subst h
    cases options with
    | nil =>
      right
      rw [getSubcommand]
      simp [group_ne_subCommand]
    | cons first rest =>
      left
      rw [getSubcommand]
      simp [group_ne_subCommand, hmissing]

/-- C4 fails on the code: for an option of type sub-command or sub-command-group that names
an unregistered child, dispatch does not fall back to the enclosing command, it reads the
middlewares of the nil child and panics.  Shown in the registry of main.go for `/chat nope`
(sub-command, name missing from a non-empty sub-registry), `/info x` (nil sub-registry) and
`/chat nope ...` (group); the whole of `HandleInteraction` ends in the panic. -/
theorem missing_child_panics :
    HandleInteraction.context (some exampleBotRouter)
        (exampleInvocation "chat" [⟨"nope", ApplicationCommandOptionSubCommand, "", []⟩]) =
      .error .nilDereference ∧
    HandleInteraction.context (some exampleBotRouter)
        (exampleInvocation "info" [⟨"x", ApplicationCommandOptionSubCommand, "", []⟩]) =
      .error .nilDereference ∧
    HandleInteraction.context (some exampleBotRouter)
        (exampleInvocation "chat"
          [⟨"nope", ApplicationCommandOptionSubCommandGroup, "", [examplePrompt]⟩]) =
      .error .nilDereference ∧
    (HandleInteraction (fun _ => true) (some exampleBotRouter)
        (exampleInvocation "chat" [⟨"nope", ApplicationCommandOptionSubCommand, "", []⟩])
        ⟨[], false⟩).panicked = true := by
  refine ⟨rfl, rfl, rfl, rfl⟩

/-- The fallback to the nearest enclosing resolved command is the path of an option that is
of neither type sub-command nor sub-command-group.  When the options select
the registered groups `g1..gN` (N may be 0) and the option reached next is of such a type,
whatever its name and whatever the sub-registry of the command reached (nil, empty or not),
dispatch does not fail: the caller is the command reached and the chain is the middlewares
accumulated so far followed by that command's own handler. -/
theorem fallback_to_enclosing_command (r : Option Router) (i : Interaction)
    (top last : Command) (groups : List Command) (first nxt : DataOption)
    (rest : List DataOption)
    (hty : i.Type_ = InteractionApplicationCommand)
    (htop : Router.Get r i.Data.Name = some top)
    (hopts : i.Data.Options = first :: rest)
    (hdesc : DescendsThrough groups top first last nxt)
    (h1 : nxt.Type_ ≠ ApplicationCommandOptionSubCommand)
    (h2 : nxt.Type_ ≠ ApplicationCommandOptionSubCommandGroup) :
    HandleInteraction.context r i =
      .ok (some { Caller := last, Interaction := i, Options := makeOptionMap i.Data.Options,
                  handlers := top.Middlewares ++ groupMiddlewares groups ++ [last.Handler] }) := by
  rw [context_of_options r i top first rest hty htop hopts,
    getSubcommand_descends groups top first last nxt _ hdesc,
    getSubcommand_plain last nxt _ h1 h2]
  simp [NewContext]

/-- The fallback at `/admin manage users prompt:hello`: the group `users` is reached and the
next option is a string. -/
theorem fallback_to_enclosing_command_witness :
    HandleInteraction.context (some (NewRouter [exampleAdmin])) exampleGroupInvocation =
      .ok (some { Caller := exampleInnerGroup, Interaction := exampleGroupInvocation,
                  Options := makeOptionMap exampleGroupInvocation.Data.Options,
                  handlers := exampleAdmin.Middlewares ++
                    groupMiddlewares [exampleOuterGroup, exampleInnerGroup] ++
                    [exampleInnerGroup.Handler] }) :=
  fallback_to_enclosing_command (some (NewRouter [exampleAdmin])) exampleGroupInvocation
    exampleAdmin exampleInnerGroup [exampleOuterGroup, exampleInnerGroup] _ examplePrompt []
    rfl rfl rfl
    ⟨rfl, rfl, _, [], rfl, rfl, rfl, examplePrompt, [], rfl, rfl, rfl⟩
    (by decide) (by decide)

/-! ## Driving a chain with Next -/

theorem invoked_append (a b : List Event) : invoked (a ++ b) = invoked a ++ invoked b := by
  simp [invoked, List.filterMap_append]

theorem handlerIds_append (a b : List Handler) :
    handlerIds (a ++ b) = handlerIds a ++ handlerIds b := by
  simp [handlerIds, List.filterMap_append]

theorem Consumed_refl (s : Cursor) : Consumed s s :=
  ⟨0, Nat.zero_le _, by simp, by simp [handlerIds], by simp⟩

theorem Consumed_of_work (s t : Cursor) (label : Nat)
    (h : Consumed (s.record (.work label)) t) : Consumed s t := by
  obtain ⟨k, hk, hh, hi, hp⟩ := h
  refine ⟨k, hk, hh, ?_, hp⟩
  simpa [Cursor.record, invoked_append, invoked] using hi

theorem Consumed_trans (s t u : Cursor) (hst : Consumed s t) (ht : t.world.panicked = false)
    (htu : Consumed t u) : Consumed s u := by
  obtain ⟨k1, hk1, hh1, hi1, hp1⟩ := hst
  obtain ⟨k2, hk2, hh2, hi2, hp2⟩ := htu
  have hsplit : s.handlers.take (k1 + k2) = s.handlers.take k1 ++ t.handlers.take k2 := by
    rw [hh1, List.take_add]
  refine ⟨k1 + k2, ?_, ?_, ?_, ?_⟩
  · rw [hh1, List.length_drop] at hk2
    omega
  · rw [hh2, hh1, List.drop_drop, Nat.add_comm]
  · rw [hi2, hi1, hsplit, handlerIds_append, List.append_assoc]
  · intro hn
    rw [hsplit, List.mem_append] at hn
    rcases hn with hn | hn
    · have := hp1 hn
      rw [ht] at this
      cases this
    · exact hp2 hn

theorem runBody_consumed (env : Env) (next : Cursor → Cursor)
    (hnext : ∀ s, Consumed s (next s)) (b : Body) :
    ∀ s, Consumed s (runBody env next b s) := by
  induction b with
  | ret => intro s; exact Consumed_refl s
  | next k ih =>
    intro s
    simp only [runBody]
    by_cases hp : (next s).world.panicked = true
    · simp only [hp, if_true]
      exact hnext s
    · simp only [hp]
      exact Consumed_trans s (next s) _ (hnext s) (by simpa using hp) (ih (next s))
  | work label k ih =>
    intro s
    simp only [runBody]
    exact Consumed_of_work s _ label (ih _)
  | branch t e iht ihe =>
    intro s
    simp only [runBody]
    by_cases hc : env s.world.events = true
    · simp only [hc, if_true]
      exact iht s
    · simp only [hc]
      exact ihe s

theorem nextFuel_consumed (env : Env) (n : Nat) : ∀ s, Consumed s (nextFuel env n s) := by
  induction n with
  | zero => intro s; exact Consumed_refl s
  | succ n ih =>
    intro s
    obtain ⟨handlers, w⟩ := s
    cases handlers with
    | nil => exact Consumed_refl _
    | cons h rest =>
      cases h with
      | none =>
        refine ⟨1, by simp, by simp [nextFuel], by simp [nextFuel, handlerIds],
          by simp [nextFuel]⟩
      | some handler =>
        have hrun := runBody_consumed env (nextFuel env n) ih handler.body
          (Cursor.record { handlers := rest, world := w } (.invoke handler.id))
        obtain ⟨k, hk, hh, hi, hp⟩ := hrun
        refine ⟨k + 1, ?_, ?_, ?_, ?_⟩
        · simpa [Cursor.record] using hk
        · simpa [nextFuel, Cursor.record] using hh
        · simp only [nextFuel]
          rw [hi]
          simp [Cursor.record, invoked_append, invoked, handlerIds]
        · intro hn
          simp only [nextFuel]
          apply hp
          simpa [Cursor.record] using hn

theorem Next_consumed (env : Env) (s : Cursor) : Consumed s (Cursor.Next env s) :=
  nextFuel_consumed env _ s

theorem Consumed_length_le (s t : Cursor) (h : Consumed s t) :
    t.handlers.length ≤ s.handlers.length := by
  obtain ⟨k, _, hh, _, _⟩ := h
  rw [hh, List.length_drop]
  omega

theorem runBody_congr (env : Env) (next1 next2 : Cursor → Cursor) (m : Nat)
    (hagree : ∀ s, s.handlers.length ≤ m → next1 s = next2 s)
    (hlen : ∀ s, (next1 s).handlers.length ≤ s.handlers.length) (b : Body) :
    ∀ s, s.handlers.length ≤ m → runBody env next1 b s = runBody env next2 b s := by
  induction b with
  | ret => intro s _; rfl
  | next k ih =>
    intro s hs
    simp only [runBody]
    rw [← hagree s hs]
    by_cases hp : (next1 s).world.panicked = true
    · simp [hp]
    · simp only [hp]
      exact ih (next1 s) (Nat.le_trans (hlen s) hs)
  | work label k ih =>
    intro s hs
    simp only [runBody]
    exact ih _ (by simpa [Cursor.record] using hs)
  | branch t e iht ihe =>
    intro s hs
    simp only [runBody]
    rw [iht s hs, ihe s hs]

theorem nextFuel_stable (env : Env) (n : Nat) :
    ∀ (m : Nat) (s : Cursor), s.handlers.length ≤ n → s.handlers.length ≤ m →
      nextFuel env n s = nextFuel env m s := by
  induction n with
  | zero =>
    intro m s hn _
    obtain ⟨handlers, w⟩ := s
    cases handlers with
    | nil => cases m <;> rfl
    | cons h rest => simp at hn
  | succ n ih =>
    intro m s hn hm
    obtain ⟨handlers, w⟩ := s
    cases handlers with
    | nil => cases m <;> rfl
    | cons h rest =>
      cases m with
      | zero => simp at hm
      | succ m =>
        cases h with
        | none => rfl
        | some handler =>
          simp only [nextFuel]
          apply runBody_congr env _ _ rest.length
          · intro s hs
            apply ih
            · simp only [List.length_cons] at hn
              omega
            · simp only [List.length_cons] at hm
              omega
          · intro s
            exact Consumed_length_le _ _ (nextFuel_consumed env n s)
          · simp [Cursor.record]

/-- The defining equations of `Next` as the code has them: an empty queue is left alone,
otherwise the head is popped and invoked, and the `ctx.Next()` calls inside the handler are
`Next` itself. -/
theorem Next_eq (env : Env) (s : Cursor) :
    Cursor.Next env s =
      match s.handlers with
      | [] => s
      | none :: rest => { handlers := rest, world := { s.world with panicked := true } }
      | some handler :: rest =>
        runBody env (Cursor.Next env) handler.body
          (Cursor.record { handlers := rest, world := s.world } (.invoke handler.id)) := by
  obtain ⟨handlers, w⟩ := s
  cases handlers with
  | nil => rfl
  | cons h rest =>
    cases h with
    | none => rfl
    | some handler =>
      simp only [Cursor.Next, List.length_cons, nextFuel]
      apply runBody_congr env _ _ rest.length
      · intro s hs
        exact nextFuel_stable env _ _ s hs (Nat.le_refl _)
      · intro s
        exact Consumed_length_le _ _ (nextFuel_consumed env _ s)
      · simp [Cursor.record]

theorem Next_nil (env : Env) (w : World) :
    Cursor.Next env { handlers := [], world := w } = { handlers := [], world := w } := rfl

theorem handlerIds_take_initial (chain : List Handler) (k : Nat) :
    handlerIds (chain.take k) <+: handlerIds chain :=
  List.IsPrefix.filterMap _ ( List.take_prefix k chain)

/-- C7: on a context whose queue of remaining handlers is empty, `Next` invokes no handler
and returns the context and the world unchanged, for `Context` and for `MessageContext`;
hence any number of consecutive `Next` calls on a drained context changes nothing. -/
theorem next_on_drained_context (env : Env) (ctx : Context) (mctx : MessageContext)
    (w : World) (n : Nat) (hctx : ctx.handlers = []) (hmctx : mctx.handlers = []) :
    ctx.Next env w = (ctx, w) ∧ mctx.Next env w = (mctx, w) ∧
    Nat.iterate (fun p : Context × World => p.1.Next env p.2) n (ctx, w) = (ctx, w) ∧
    Nat.iterate (fun p : MessageContext × World => p.1.Next env p.2) n (mctx, w)
      = (mctx, w) := by
  have h1 : ctx.Next env w = (ctx, w) := by
    obtain ⟨caller, i, options, handlers⟩ := ctx
    simp only at hctx
    subst hctx
    rfl
  have h2 : mctx.Next env w = (mctx, w) := by
    obtain ⟨caller, m, handlers⟩ := mctx
    simp only at hmctx
    subst hmctx
    rfl
  exact ⟨h1, h2, Function.iterate_fixed h1 n, Function.iterate_fixed h2 n⟩

/-- C7, at a drained context of the `info` command and three `Next` calls. -/
theorem next_on_drained_context_witness :
    Nat.iterate (fun p : Context × World => p.1.Next (fun _ => true) p.2) 3
      (NewContext exampleInfo (exampleInvocation "info" []) none [],
        ⟨[.invoke 6, .work 6], false⟩) =
      (NewContext exampleInfo (exampleInvocation "info" []) none [],
        ⟨[.invoke 6, .work 6], false⟩) :=
  (next_on_drained_context (fun _ => true)
    (NewContext exampleInfo (exampleInvocation "info" []) none [])
    (NewMessageContext exampleGpt ⟨"1", "2", "hi"⟩ [])
    ⟨[.invoke 6, .work 6], false⟩ 3 rfl rfl).2.2.1

/-- C5: whatever the handlers of the chain do (each body may call `Next` any number of
times, before or after its own work, depending on what it observes), one `Next` on a
`Context` or a `MessageContext` consumes a prefix of the chain: for some `k` the queue left
is the chain without its first `k` handlers, and the handlers entered during the run are,
in chain order, the (non-nil) handlers among those first `k`, each position once.  So the
handlers entered form a prefix of the chain, no handler is entered more often than it
occurs in the chain, and a nil handler among the first `k` has stopped the run by a
panic. -/
theorem handlers_run_in_chain_order (env : Env) (ctx : Context) (mctx : MessageContext)
    (w : World) :
    (∃ k, k ≤ ctx.handlers.length ∧
      (ctx.Next env w).1.handlers = ctx.handlers.drop k ∧
      invoked (ctx.Next env w).2.events =
        invoked w.events ++ handlerIds (ctx.handlers.take k) ∧
      handlerIds (ctx.handlers.take k) <+: handlerIds ctx.handlers ∧
      (∀ id, (handlerIds (ctx.handlers.take k)).count id ≤ (handlerIds ctx.handlers).count id) ∧
      (none ∈ ctx.handlers.take k → (ctx.Next env w).2.panicked = true)) ∧
    (∃ k, k ≤ mctx.handlers.length ∧
      (mctx.Next env w).1.handlers = mctx.handlers.drop k ∧
      invoked (mctx.Next env w).2.events =
        invoked w.events ++ handlerIds (mctx.handlers.take k) ∧
      handlerIds (mctx.handlers.take k) <+: handlerIds mctx.handlers ∧
      (∀ id, (handlerIds (mctx.handlers.take k)).count id ≤
        (handlerIds mctx.handlers).count id) ∧
      (none ∈ mctx.handlers.take k → (mctx.Next env w).2.panicked = true)) := by
  constructor
  · obtain ⟨k, hk, hh, hi, hp⟩ := Next_consumed env { handlers := ctx.handlers, world := w }
    exact ⟨k, hk, hh, hi, handlerIds_take_initial _ k,
      fun id => (handlerIds_take_initial _ k).sublist.count_le id, hp⟩
  · obtain ⟨k, hk, hh, hi, hp⟩ := Next_consumed env { handlers := mctx.handlers, world := w }
    exact ⟨k, hk, hh, hi, handlerIds_take_initial _ k,
      fun id => (handlerIds_take_initial _ k).sublist.count_le id, hp⟩

theorem Same_refl (s : Cursor) : Same s s := ⟨rfl, rfl, rfl⟩

theorem Same_trans {s t u : Cursor} (h1 : Same s t) (h2 : Same t u) : Same s u :=
  ⟨h1.1.trans h2.1, h1.2.1.trans h2.2.1, h1.2.2.trans h2.2.2⟩

theorem Same_record_work (s : Cursor) (label : Nat) : Same (s.record (.work label)) s :=
  ⟨rfl, by simp [Cursor.record, invoked_append, invoked], rfl⟩

/-- A body that never calls `Next` leaves the queue, the handlers entered and the panic
flag as they are. -/
theorem runBody_never (env : Env) (next : Cursor → Cursor) (b : Body)
    (hb : b.neverCallsNext = true) : ∀ s, Same (runBody env next b s) s := by
  induction b with
  | ret => intro s; exact Same_refl s
  | next k _ => simp [Body.neverCallsNext] at hb
  | work label k ih =>
    intro s
    simp only [runBody]
    exact Same_trans (ih (by simpa [Body.neverCallsNext] using hb) _) (Same_record_work s label)
  | branch t e iht ihe =>
    intro s
    simp only [Body.neverCallsNext, Bool.and_eq_true] at hb
    simp only [runBody]
    by_cases hc : env s.world.events = true
    · simp only [hc, if_true]
      exact iht hb.1 s
    · simp only [hc]
      exact ihe hb.2 s

/-- A body that calls `Next` exactly once ends like that one call, made from a cursor that
differs from the start only in the work recorded. -/
theorem runBody_once (env : Env) (next : Cursor → Cursor) (b : Body)
    (hb : b.callsNextOnce = true) :
    ∀ s, ∃ s1, Same s1 s ∧ Same (runBody env next b s) (next s1) := by
  induction b with
  | ret => simp [Body.callsNextOnce] at hb
  | next k _ =>
    intro s
    refine ⟨s, Same_refl s, ?_⟩
    simp only [runBody]
    by_cases hp : (next s).world.panicked = true
    · simp only [hp, if_true]
      exact Same_refl _
    · simp only [hp]
      exact runBody_never env next k (by simpa [Body.callsNextOnce] using hb) _
  | work label k ih =>
    intro s
    obtain ⟨s1, h1, h2⟩ := ih (by simpa [Body.callsNextOnce] using hb) (s.record (.work label))
    exact ⟨s1, Same_trans h1 (Same_record_work s label), by simpa only [runBody] using h2⟩
  | branch t e iht ihe =>
    intro s
    simp only [Body.callsNextOnce, Bool.and_eq_true] at hb
    simp only [runBody]
    by_cases hc : env s.world.events = true
    · simp only [hc, if_true]
      exact iht hb.1 s
    · simp only [hc]
      exact ihe hb.2 s

/-- On a drained queue a body changes neither the queue, nor the handlers entered, nor the
panic flag, however often it calls `Next`. -/
theorem runBody_drained (env : Env) (b : Body) :
    ∀ s, s.handlers = [] → Same (runBody env (Cursor.Next env) b s) s := by
  induction b with
  | ret => intro s _; exact Same_refl s
  | next k ih =>
    intro s hs
    have hn : Cursor.Next env s = s := by
      obtain ⟨handlers, w⟩ := s
      simp only at hs
      subst hs
      rfl
    simp only [runBody, hn]
    by_cases hp : s.world.panicked = true
    · simp only [hp, if_true]
      exact Same_refl s
    · simp only [hp]
      exact ih s hs
  | work label k ih =>
    intro s hs
    simp only [runBody]
    exact Same_trans (ih _ (by simpa [Cursor.record] using hs)) (Same_record_work s label)
  | branch t e iht ihe =>
    intro s hs
    simp only [runBody]
    by_cases hc : env s.world.events = true
    · simp only [hc, if_true]
      exact iht s hs
    · simp only [hc]
      exact ihe s hs

/-- Handlers that each call `Next` exactly once hand the run on to the rest of the chain:
the run over `pre ++ rest` ends like a run over `rest` started after the handlers of `pre`
were entered in order. -/
theorem Next_through_once (env : Env) (pre : List HandlerFunc)
    (hpre : ∀ h ∈ pre, h.body.callsNextOnce = true) (rest : List Handler) :
    ∀ s, s.handlers = pre.map some ++ rest →
      ∃ s1, s1.handlers = rest ∧
        invoked s1.world.events = invoked s.world.events ++ pre.map HandlerFunc.id ∧
        s1.world.panicked = s.world.panicked ∧
        Same (Cursor.Next env s) (Cursor.Next env s1) := by
  induction pre with
  | nil =>
    intro s hs
    exact ⟨s, by simpa using hs, by simp, rfl, Same_refl _⟩
  | cons h pre ih =>
    intro s hs
    obtain ⟨handlers, w⟩ := s
    simp only at hs
    subst hs
    rw [Next_eq]
    simp only [List.map_cons, List.cons_append]
    obtain ⟨s1, h1, h2⟩ := runBody_once env (Cursor.Next env) h.body
      (hpre h (List.mem_cons_self _ _))
      (Cursor.record { handlers := pre.map some ++ rest, world := w } (.invoke h.id))
    obtain ⟨s2, hh, hi, hp, hs2⟩ :=
      ih (fun x hx => hpre x (List.mem_cons_of_mem _ hx)) s1 (by simpa [Cursor.record] using h1.1)
    refine ⟨s2, hh, ?_, ?_, Same_trans h2 hs2⟩
    · rw [hi, h1.2.1]
      simp [Cursor.record, invoked_append, invoked]
    · rw [hp, h1.2.2]
      rfl

/-- C6: cooperative chaining.  Let the chain of a context start with handlers `pre` that each
call `Next` exactly once.  (1) If the next handler `stop` returns without calling `Next`,
one `Next` on the context enters exactly the handlers of `pre` and then `stop`, in that
order, and the handlers `post` after `stop` (the terminal handler among them) stay in the
queue and are not entered.  (2) If `pre` are all the middlewares and only the terminal
handler follows, whatever it does, one `Next` enters all handlers of the chain in chain
order and drains the queue.  No panic is raised in either case. -/
theorem middleware_decides_continuation (env : Env) (ctx : Context)
    (pre : List HandlerFunc) (stop terminal : HandlerFunc) (post : List Handler) (w : World)
    (hw : w.panicked = false)
    (hpre : ∀ h ∈ pre, h.body.callsNextOnce = true)
    (hstop : stop.body.neverCallsNext = true) :
    ((Context.Next env { ctx with handlers := pre.map some ++ some stop :: post } w).1.handlers
        = post ∧
      invoked (Context.Next env
          { ctx with handlers := pre.map some ++ some stop :: post } w).2.events
        = invoked w.events ++ (pre ++ [stop]).map HandlerFunc.id ∧
      (Context.Next env
          { ctx with handlers := pre.map some ++ some stop :: post } w).2.panicked = false) ∧
    ((Context.Next env { ctx with handlers := pre.map some ++ [some terminal] } w).1.handlers
        = [] ∧
      invoked (Context.Next env
          { ctx with handlers := pre.map some ++ [some terminal] } w).2.events
        = invoked w.events ++ (pre ++ [terminal]).map HandlerFunc.id ∧
      (Context.Next env
          { ctx with handlers := pre.map some ++ [some terminal] } w).2.panicked = false) := by
  constructor
  · obtain ⟨s1, hh, hi, hp, hsame⟩ := Next_through_once env pre hpre (some stop :: post)
      { handlers := pre.map some ++ some stop :: post, world := w } rfl
    obtain ⟨handlers1, w1⟩ := s1
    simp only at hh hi hp
    subst hh
    have e := Next_eq env { handlers := some stop :: post, world := w1 }
    simp only at e
    rw [e] at hsame
    have hrun := runBody_never env (Cursor.Next env) stop.body hstop
      (Cursor.record { handlers := post, world := w1 } (.invoke stop.id))
    have h := Same_trans hsame hrun
    refine ⟨h.1, ?_, ?_⟩
    · simp only [Context.Next]
      rw [h.2.1]
      simp only [Cursor.record, invoked_append, hi, List.map_append, List.append_assoc]
      rfl
    · simp only [Context.Next]
      rw [h.2.2]
      simp [Cursor.record, hp, hw]
  · obtain ⟨s1, hh, hi, hp, hsame⟩ := Next_through_once env pre hpre [some terminal]
      { handlers := pre.map some ++ [some terminal], world := w } rfl
    obtain ⟨handlers1, w1⟩ := s1
    simp only at hh hi hp
    subst hh
    have e := Next_eq env { handlers := [some terminal], world := w1 }
    simp only at e
    rw [e] at hsame
    have hrun := runBody_drained env terminal.body
      (Cursor.record { handlers := [], world := w1 } (.invoke terminal.id)) rfl
    have h := Same_trans hsame hrun
    refine ⟨h.1, ?_, ?_⟩
    · simp only [Context.Next]
      rw [h.2.1]
      simp only [Cursor.record, invoked_append, hi, List.map_append, List.append_assoc]
      rfl
    · simp only [Context.Next]
      rw [h.2.2]
      simp [Cursor.record, hp, hw]

/-- C6, at the chain of `dalle`: the first middleware passes on, the moderation middleware
rejects (it returns without `Next`), the image handler stays in the queue and is not
entered. -/
theorem middleware_decides_continuation_witness :
    (Context.Next (fun _ => true)
        { NewContext exampleDalle (exampleInvocation "image" []) none [] with
          handlers := [exampleAck].map some ++ some exampleReject :: [some exampleImageHandler] }
        ⟨[], false⟩).1.handlers = [some exampleImageHandler] ∧
    invoked (Context.Next (fun _ => true)
        { NewContext exampleDalle (exampleInvocation "image" []) none [] with
          handlers := [exampleAck].map some ++ some exampleReject :: [some exampleImageHandler] }
        ⟨[], false⟩).2.events =
      invoked [] ++ ([exampleAck] ++ [exampleReject]).map HandlerFunc.id ∧
    (Context.Next (fun _ => true)
        { NewContext exampleDalle (exampleInvocation "image" []) none [] with
          handlers := [exampleAck].map some ++ some exampleReject :: [some exampleImageHandler] }
        ⟨[], false⟩).2.panicked = false :=
  (middleware_decides_continuation (fun _ => true)
    (NewContext exampleDalle (exampleInvocation "image" []) none [])
    [exampleAck] exampleReject exampleImageHandler [some exampleImageHandler] ⟨[], false⟩
    rfl (by decide) rfl).1

/-! ## Free-text dispatch -/

mutual
theorem getMessageHandlers_preorder : ∀ cmd : Command,
    getMessageHandlers cmd = ((preorder cmd).filterMap Command.MessageHandler).map some
  | ⟨name, description, handler, middlewares, messageHandler, subCommands⟩ => by
    cases subCommands with
    | none => cases messageHandler <;> simp [getMessageHandlers, preorder]
    | some sub =>
      obtain ⟨commands⟩ := sub
      have ih := getMessageHandlers_range_preorder commands
      cases messageHandler <;> simp [getMessageHandlers, preorder, ih]
theorem getMessageHandlers_range_preorder : ∀ commands : List (String × Command),
    getMessageHandlers.range commands =
      ((preorder.range commands).filterMap Command.MessageHandler).map some
  | [] => by simp [getMessageHandlers.range, preorder.range]
  | (_, cmd) :: rest => by
    rw [getMessageHandlers.range, preorder.range, getMessageHandlers_preorder cmd,
      getMessageHandlers_range_preorder rest]
    simp [List.filterMap_append]
end

theorem getMessageHandlers_range_flatMap (commands : List (String × Command)) :
    getMessageHandlers.range commands =
      (commands.map Prod.snd).flatMap getMessageHandlers := by
  induction commands with
  | nil => rfl
  | cons entry rest ih =>
    obtain ⟨key, cmd⟩ := entry
    rw [getMessageHandlers.range, ih]
    simp

theorem getMessageHandlers_eq (cmd : Command) :
    getMessageHandlers cmd =
      (match cmd.MessageHandler with
        | some h => [some h]
        | none => []) ++ (Router.List cmd.SubCommands).flatMap getMessageHandlers := by
  obtain ⟨name, description, handler, middlewares, messageHandler, subCommands⟩ := cmd
  cases subCommands with
  | none => simp [getMessageHandlers, Router.List]
  | some sub =>
    obtain ⟨commands⟩ := sub
    simp [getMessageHandlers, Router.List, getMessageHandlers_range_flatMap]

theorem contextsFor_cons (m : Message) (key : String) (cmd : Command)
    (rest : List (String × Command)) :
    contextsFor m ((key, cmd) :: rest) =
      if (getMessageHandlers cmd).length > 0 then
        NewMessageContext cmd m (getMessageHandlers cmd) :: contextsFor m rest
      else contextsFor m rest := by
  by_cases h : (getMessageHandlers cmd).length > 0
  · simp [contextsFor, h]
  · simp [contextsFor, h]

/-- The loop of `HandleMessage` builds the contexts of `contextsFor` in order and stops at
the first panic; without panic it has built and driven all of them. -/
theorem HandleMessage_range_spec (env : Env) (m : Message) :
    ∀ (commands : List (String × Command)) (built : List MessageContext) (w : World),
      ∃ more, (HandleMessage.range env m commands (built, w)).1 = built ++ more ∧
        more <+: contextsFor m commands ∧
        ((HandleMessage.range env m commands (built, w)).2.panicked = false →
          more = contextsFor m commands ∧
          (HandleMessage.range env m commands (built, w)).2 =
            driveAll env (contextsFor m commands) w) := by
  intro commands
  induction commands with
  | nil =>
    intro built w
    exact ⟨[], by simp [HandleMessage.range], by simp [contextsFor],
      fun _ => ⟨by simp [contextsFor], by simp [HandleMessage.range, contextsFor, driveAll]⟩⟩
  | cons entry rest ih =>
    intro built w
    obtain ⟨key, cmd⟩ := entry
    rw [contextsFor_cons]
    by_cases h : (getMessageHandlers cmd).length > 0
    · by_cases hp :
        ((NewMessageContext cmd m (getMessageHandlers cmd)).Next env w).2.panicked = true
      · refine ⟨[NewMessageContext cmd m (getMessageHandlers cmd)], ?_, ?_, ?_⟩
        · simp [HandleMessage.range, h, hp]
        · simp only [h, if_true]
          exact List.prefix_append [NewMessageContext cmd m (getMessageHandlers cmd)] _
        · intro hnp
          simp [HandleMessage.range, h, hp] at hnp
      · obtain ⟨more, h1, h2, h3⟩ :=
          ih (built ++ [NewMessageContext cmd m (getMessageHandlers cmd)])
            ((NewMessageContext cmd m (getMessageHandlers cmd)).Next env w).2
        have hrange : HandleMessage.range env m ((key, cmd) :: rest) (built, w) =
            HandleMessage.range env m rest
              (built ++ [NewMessageContext cmd m (getMessageHandlers cmd)],
                ((NewMessageContext cmd m (getMessageHandlers cmd)).Next env w).2) := by
          simp [HandleMessage.range, h, hp]
        rw [hrange]
        refine ⟨NewMessageContext cmd m (getMessageHandlers cmd) :: more, ?_, ?_, ?_⟩
        · rw [h1]
          simp
        · simp only [h, if_true]
          exact (List.prefix_cons_inj _).mpr h2
        · intro hnp
          obtain ⟨h4, h5⟩ := h3 hnp
          simp only [h, if_true]
          exact ⟨by rw [h4], by rw [h5]; simp [driveAll]⟩
    · obtain ⟨more, h1, h2, h3⟩ := ih built w
      have hrange : HandleMessage.range env m ((key, cmd) :: rest) (built, w) =
          HandleMessage.range env m rest (built, w) := by
        simp [HandleMessage.range, h]
      rw [hrange]
      simp only [h, if_false]
      exact ⟨more, h1, h2, h3⟩

theorem mem_contextsFor (m : Message) (commands : List (String × Command))
    (ctx : MessageContext) (h : ctx ∈ contextsFor m commands) :
    ctx.Caller ∈ commands.map Prod.snd ∧ ctx.Message = m ∧
      ctx.handlers = getMessageHandlers ctx.Caller ∧ ctx.handlers ≠ [] := by
  simp only [contextsFor, List.mem_filterMap] at h
  obtain ⟨entry, hmem, hctx⟩ := h
  by_cases hlen : (getMessageHandlers entry.2).length > 0
  · simp only [hlen, if_true, Option.some.injEq] at hctx
    subst hctx
    refine ⟨List.mem_map_of_mem _ hmem, rfl, rfl, ?_⟩
    intro hnil
    simp only [NewMessageContext] at hnil
    rw [hnil] at hlen
    simp at hlen
  · simp [hlen] at hctx

/-- C9: `getMessageHandlers cmd` is the list of the free-text handlers of `cmd` and of all
its descendants, one entry for each command that has one, in pre-order: the command's own
handler first (when it has one), then the lists harvested from each sub-command in turn.
`HandleMessage` builds a `MessageContext` only for top-level commands whose harvested list
is not empty, with that list as its chain; it builds them in the order of the registry and,
when no handler panics, builds and drives one for each such command. -/
theorem free_text_handlers_preorder (env : Env) (r : Router) (cmd : Command) (m : Message)
    (w : World) :
    getMessageHandlers cmd = ((preorder cmd).filterMap Command.MessageHandler).map some ∧
    getMessageHandlers cmd =
      (match cmd.MessageHandler with
        | some h => [some h]
        | none => []) ++ (Router.List cmd.SubCommands).flatMap getMessageHandlers ∧
    (HandleMessage env r m w).1 <+: contextsFor m r.commands ∧
    (∀ ctx ∈ (HandleMessage env r m w).1,
      ctx.Caller ∈ Router.List (some r) ∧ ctx.Message = m ∧
      ctx.handlers = getMessageHandlers ctx.Caller ∧ ctx.handlers ≠ []) ∧
    ((HandleMessage env r m w).2.panicked = false →
      HandleMessage env r m w =
        (contextsFor m r.commands, driveAll env (contextsFor m r.commands) w)) := by
  obtain ⟨more, h1, h2, h3⟩ := HandleMessage_range_spec env m r.commands [] w
  have hbuilt : (HandleMessage env r m w).1 = more := by
    simpa [HandleMessage] using h1
  refine ⟨getMessageHandlers_preorder cmd, getMessageHandlers_eq cmd, ?_, ?_, ?_⟩
  · rw [hbuilt]
    exact h2
  · intro ctx hctx
    rw [hbuilt] at hctx
    exact mem_contextsFor m r.commands ctx (h2.subset hctx)
  · intro hnp
    obtain ⟨h4, h5⟩ := h3 hnp
    apply Prod.ext
    · rw [hbuilt, h4]
    · exact h5

/-! ## The option map of the context -/

theorem mapSet_of_not_mem {β : Type} (m : List (String × β)) (key : String) (v : β)
    (hfresh : key ∉ m.map Prod.fst) : mapSet m key v = m ++ [(key, v)] := by
  induction m with
  | nil => rfl
  | cons e rest ih =>
    obtain ⟨k, w⟩ := e
    simp only [List.map_cons, List.mem_cons, not_or] at hfresh
    have hk : ¬ k = key := fun e => hfresh.1 e.symm
    simp [mapSet, hk, ih hfresh.2]

theorem foldl_mapSet_of_nodup (options : List DataOption) :
    ∀ acc : OptionsMap, (acc.map Prod.fst ++ options.map DataOption.Name).Nodup →
      options.foldl (fun m option => mapSet m option.Name option) acc =
        acc ++ options.map (fun option => (option.Name, option)) := by
  induction options with
  | nil => intro acc _; simp
  | cons o rest ih =>
    intro acc hnodup
    have hfresh : o.Name ∉ acc.map Prod.fst := by
      intro hmem
      have := (List.nodup_append.mp hnodup).2.2
      exact this hmem (by simp)
    simp only [List.foldl_cons, mapSet_of_not_mem acc o.Name o hfresh]
    rw [ih]
    · simp
    · simpa [List.append_assoc] using hnodup

theorem makeOptionMap_of_nodup (options : List DataOption)
    (hnodup : (options.map DataOption.Name).Nodup) :
    makeOptionMap options = options.map (fun option => (option.Name, option)) := by
  have := foldl_mapSet_of_nodup options [] (by simpa using hnodup)
  simpa [makeOptionMap] using this

theorem mapGet_pairs_of_nodup (options : List DataOption)
    (hnodup : (options.map DataOption.Name).Nodup) (o : DataOption) (ho : o ∈ options) :
    mapGet (options.map (fun option => (option.Name, option))) o.Name = some o := by
  induction options with
  | nil => simp at ho
  | cons x rest ih =>
    simp only [List.map_cons, List.nodup_cons] at hnodup
    simp only [List.mem_cons] at ho
    rcases ho with ho | ho
    · subst ho
      simp [mapGet]
    · have hne : ¬ x.Name = o.Name := by
        intro e
        apply hnodup.1
        rw [e]
        exact List.mem_map_of_mem _ ho
      simp [mapGet, hne, ih hnodup.2 ho]

/-- C26: the context that `HandleInteraction` builds carries the options of the nesting
level that was resolved.  For an invocation that resolves (through any groups) to a leaf
sub-command its `Options` map is built from the options nested under the option that
selected the leaf; for a top-level command without sub-option it is built from the
top-level options of the invocation.  When the option names of a level are unique the map
is exactly one entry for each option under its name: `Options[name]` is the option of that
name and a name that no option has is not a key. -/
theorem context_carries_resolved_options (r : Option Router) (i : Interaction)
    (top leaf : Command) (groups : List Command) (leafOpt : DataOption)
    (options : List DataOption)
    (hty : i.Type_ = InteractionApplicationCommand)
    (htop : Router.Get r i.Data.Name = some top) :
    (∀ first rest, i.Data.Options = first :: rest →
      ResolvesThrough groups top first leaf leafOpt →
      ∃ ctx, HandleInteraction.context r i = .ok (some ctx) ∧ ctx.Caller = leaf ∧
        ctx.Options = makeOptionMap leafOpt.Options) ∧
    ((∀ first ∈ i.Data.Options.head?,
        first.Type_ ≠ ApplicationCommandOptionSubCommand ∧
        first.Type_ ≠ ApplicationCommandOptionSubCommandGroup) →
      ∃ ctx, HandleInteraction.context r i = .ok (some ctx) ∧ ctx.Caller = top ∧
        ctx.Options = makeOptionMap i.Data.Options) ∧
    ((options.map DataOption.Name).Nodup →
      makeOptionMap options = options.map (fun option => (option.Name, option)) ∧
      (∀ o ∈ options, mapGet (makeOptionMap options) o.Name = some o) ∧
      (∀ name, name ∉ options.map DataOption.Name →
        mapGet (makeOptionMap options) name = none) ∧
      (makeOptionMap options).map Prod.fst = options.map DataOption.Name) := by
  refine ⟨?_, ?_, ?_⟩
  · intro first rest hopts hres
    refine ⟨NewContext leaf i (some leafOpt)
      (top.Middlewares ++ groupMiddlewares groups ++ leaf.Middlewares ++ [leaf.Handler]),
      ?_, rfl, rfl⟩
    rw [context_of_options r i top first rest hty htop hopts,
      getSubcommand_resolves groups top first leaf leafOpt _ hres]
  · intro hplain
    cases hopts : i.Data.Options with
    | nil =>
      exact ⟨NewContext top i none (top.Middlewares ++ [top.Handler]),
        by simp [HandleInteraction.context, hty, htop, hopts], rfl,
        by simp [NewContext, hopts]⟩
    | cons first rest =>
      have hp := hplain first (by simp [hopts])
      refine ⟨NewContext top i none (top.Middlewares ++ [top.Handler]), ?_, rfl,
        by simp [NewContext, hopts]⟩
      rw [context_of_options r i top first rest hty htop hopts,
        getSubcommand_plain top first _ hp.1 hp.2]
  · intro hnodup
    have hmap := makeOptionMap_of_nodup options hnodup
    refine ⟨hmap, ?_, ?_, ?_⟩
    · intro o ho
      rw [hmap]
      exact mapGet_pairs_of_nodup options hnodup o ho
    · intro name hname
      rw [hmap, mapGet_eq_none_iff]
      simpa [List.map_map, Function.comp_def] using hname
    · rw [hmap]
      simp [List.map_map, Function.comp_def]

/-- C26, at `/admin manage users add prompt:hello`: the options of the leaf level. -/
theorem context_carries_resolved_options_witness :
    ∃ ctx, HandleInteraction.context (some (NewRouter [exampleAdmin]))
        exampleNestedInvocation = .ok (some ctx) ∧ ctx.Caller = exampleLeaf ∧
      ctx.Options = makeOptionMap exampleAddOption.Options :=
  (context_carries_resolved_options (some (NewRouter [exampleAdmin])) exampleNestedInvocation
    exampleAdmin exampleLeaf [exampleOuterGroup, exampleInnerGroup] exampleAddOption
    [examplePrompt] rfl rfl).1 exampleManageOption [] rfl
    ⟨rfl, rfl, exampleUsersOption, [], rfl, rfl, rfl, exampleAddOption, [], rfl, rfl, rfl, rfl⟩

end bot

namespace gpt

/-! ## Token accounting -/

theorem tokensConfiguration_known_iff (model : String) :
    (_tokensConfiguration model).1 = true ↔ model ∈ GPT3Dot5Turbo0301 :: schemeThreeOne := by
  unfold _tokensConfiguration schemeThreeOne
  split_ifs with h1 h2
  · simp [h1]
  · simp only [List.mem_cons, List.mem_singleton, List.not_mem_nil, or_false]
    simp only [true_iff]
    right
    tauto
  · simp only [List.mem_cons, List.mem_singleton, List.not_mem_nil, or_false]
    simp only [Bool.false_eq_true, false_iff]
    tauto

theorem countMessageTokens_of_known (tok : Tokenizer) (message : ChatCompletionMessage)
    (model : String) (hknown : (_tokensConfiguration model).1 = true) :
    countMessageTokens tok message model =
      some (_countMessageTokens (tok model) (_tokensConfiguration model).2.1
        (_tokensConfiguration model).2.2 message) := by
  unfold countMessageTokens
  rcases hc : _tokensConfiguration model with ⟨ok, tpm, tpn⟩
  simp only [hc] at hknown
  subst hknown
  rfl

theorem countMessageTokens_of_unknown (tok : Tokenizer) (message : ChatCompletionMessage)
    (model : String) (hunknown : (_tokensConfiguration model).1 = false) :
    countMessageTokens tok message model = none := by
  unfold countMessageTokens
  rcases hc : _tokensConfiguration model with ⟨ok, tpm, tpn⟩
  simp only [hc] at hunknown
  subst hunknown
  rfl

theorem foldl_add_eq_sum {α : Type} (f : α → Int) (l : List α) (a : Int) :
    l.foldl (fun tokens x => tokens + f x) a = a + (l.map f).sum := by
  induction l generalizing a with
  | nil => simp
  | cons x rest ih =>
    simp only [List.foldl_cons, List.map_cons, List.sum_cons, ih]
    omega

theorem countMessagesTokens_of_known (tok : Tokenizer) (messages : List ChatCompletionMessage)
    (model : String) (hknown : (_tokensConfiguration model).1 = true) :
    countMessagesTokens tok messages model = some (tokensOf tok model messages + 3) := by
  unfold countMessagesTokens tokensOf
  have hm : ∀ m, (countMessageTokens tok m model).getD 0 =
      _countMessageTokens (tok model) (_tokensConfiguration model).2.1
        (_tokensConfiguration model).2.2 m := by
    intro m
    rw [countMessageTokens_of_known tok m model hknown]
    rfl
  simp only [hm]
  rcases hc : _tokensConfiguration model with ⟨ok, tpm, tpn⟩
  simp only [hc] at hknown
  subst hknown
  simp only [foldl_add_eq_sum]
  simp

theorem countMessagesTokens_of_unknown (tok : Tokenizer)
    (messages : List ChatCompletionMessage) (model : String)
    (hunknown : (_tokensConfiguration model).1 = false) :
    countMessagesTokens tok messages model = none := by
  unfold countMessagesTokens
  rcases hc : _tokensConfiguration model with ⟨ok, tpm, tpn⟩
  simp only [hc] at hunknown
  subst hunknown
  rfl

theorem tokensOf_append (tok : Tokenizer) (model : String)
    (a b : List ChatCompletionMessage) :
    tokensOf tok model (a ++ b) = tokensOf tok model a + tokensOf tok model b := by
  simp [tokensOf]

/-- C17: `modelTruncateLimit` is 3500 for gpt-3.5-turbo and gpt-3.5-turbo-0301, 6500 for
gpt-4 and gpt-4-0314, 30500 for gpt-4-32k and gpt-4-32k-0314 (an alias and its dated
snapshot share one limit), and absent for every other model string. -/
theorem truncate_limit_per_family (model : String) :
    modelTruncateLimit "gpt-3.5-turbo" = some 3500 ∧
    modelTruncateLimit "gpt-3.5-turbo-0301" = some 3500 ∧
    modelTruncateLimit "gpt-4" = some 6500 ∧
    modelTruncateLimit "gpt-4-0314" = some 6500 ∧
    modelTruncateLimit "gpt-4-32k" = some 30500 ∧
    modelTruncateLimit "gpt-4-32k-0314" = some 30500 ∧
    (modelTruncateLimit model = none ↔
      model ∉ ["gpt-3.5-turbo", "gpt-3.5-turbo-0301", "gpt-4", "gpt-4-0314", "gpt-4-32k",
        "gpt-4-32k-0314"]) := by
  refine ⟨by decide, by decide, by decide, by decide, by decide, by decide, ?_⟩
  unfold modelTruncateLimit GPT3Dot5Turbo GPT3Dot5Turbo0301 GPT4 GPT40314 GPT432K GPT432K0314
  split_ifs with h1 h2 h3
  · simp only [reduceCtorEq, false_iff, not_not, List.mem_cons]
    tauto
  · simp only [reduceCtorEq, false_iff, not_not, List.mem_cons]
    tauto
  · simp only [reduceCtorEq, false_iff, not_not, List.mem_cons]
    tauto
  · simp only [true_iff, List.mem_cons, List.mem_singleton, List.not_mem_nil, or_false]
    tauto

/-- C16: `countMessageTokens` never fails; it is absent exactly when `_tokensConfiguration`
does not implement the model, and for an implemented model it is tokensPerMessage plus the
token counts of content and role, plus tokensPerName and the token count of the name when
the name is not empty.  The configuration is (4, -1) for gpt-3.5-turbo-0301, (3, 1) for
the other nine listed models, and no other model is implemented. -/
theorem count_message_tokens_formula (tok : Tokenizer) (message : ChatCompletionMessage)
    (model : String) :
    (countMessageTokens tok message model = none ↔ (_tokensConfiguration model).1 = false) ∧
    ((_tokensConfiguration model).1 = true →
      countMessageTokens tok message model =
        some ((_tokensConfiguration model).2.1 + (tok model message.Content : Int) +
          (tok model message.Role : Int) +
          (if message.Name ≠ "" then
            (_tokensConfiguration model).2.2 + (tok model message.Name : Int) else 0))) ∧
    _tokensConfiguration "gpt-3.5-turbo-0301" = (true, 4, -1) ∧
    (∀ listed ∈ ["gpt-3.5-turbo", "gpt-3.5-turbo-0613", "gpt-3.5-turbo-16k",
        "gpt-3.5-turbo-16k-0613", "gpt-4", "gpt-4-0314", "gpt-4-0613", "gpt-4-32k-0314",
        "gpt-4-32k-0613"], _tokensConfiguration listed = (true, 3, 1)) ∧
    ((_tokensConfiguration model).1 = false ↔
      model ∉ ["gpt-3.5-turbo-0301", "gpt-3.5-turbo", "gpt-3.5-turbo-0613",
        "gpt-3.5-turbo-16k", "gpt-3.5-turbo-16k-0613", "gpt-4", "gpt-4-0314", "gpt-4-0613",
        "gpt-4-32k-0314", "gpt-4-32k-0613"]) := by
  refine ⟨?_, ?_, by decide, by decide, ?_⟩
  · cases hk : (_tokensConfiguration model).1 with
    | false => simp [countMessageTokens_of_unknown tok message model hk]
    | true => simp [countMessageTokens_of_known tok message model hk]
  · intro hk
    rw [countMessageTokens_of_known tok message model hk]
    unfold _countMessageTokens
    by_cases hn : message.Name = ""
    · simp [hn]
    · simp only [ne_eq, hn, not_false_eq_true, if_true]
      congr 1
      omega
  · have h := tokensConfiguration_known_iff model
    constructor
    · intro hf hmem
      rw [h.mpr hmem] at hf
      cases hf
    · intro hnot
      cases hk : (_tokensConfiguration model).1 with
      | false => rfl
      | true => exact absurd (h.mp hk) hnot

/-- C16, at a named turn of gpt-3.5-turbo-0301 with the example tokenizer. -/
theorem count_message_tokens_formula_witness :
    countMessageTokens exampleTokenizer ⟨"user", "hello", "bob"⟩ "gpt-3.5-turbo-0301" =
      some (4 + 500 + 400 + (-1 + 300)) :=
  ((count_message_tokens_formula exampleTokenizer ⟨"user", "hello", "bob"⟩
    "gpt-3.5-turbo-0301").2.1 (by decide))

theorem countAllMessagesTokens_of_known (tok : Tokenizer)
    (systemMessage : Option ChatCompletionMessage) (messages : List ChatCompletionMessage)
    (model : String) (hknown : (_tokensConfiguration model).1 = true) :
    countAllMessagesTokens tok systemMessage messages model =
      some (tokensOf tok model messages + tokensOf tok model systemMessage.toList + 3) := by
  cases systemMessage with
  | none =>
    simp [countAllMessagesTokens, countMessagesTokens_of_known tok _ model hknown, tokensOf]
  | some s =>
    simp [countAllMessagesTokens, countMessagesTokens_of_known tok _ model hknown,
      tokensOf_append]

theorem countAllMessagesTokens_eq_none_iff (tok : Tokenizer)
    (systemMessage : Option ChatCompletionMessage) (messages : List ChatCompletionMessage)
    (model : String) :
    countAllMessagesTokens tok systemMessage messages model = none ↔
      (_tokensConfiguration model).1 = false := by
  cases hk : (_tokensConfiguration model).1 with
  | false =>
    cases systemMessage <;>
      simp [countAllMessagesTokens, countMessagesTokens_of_unknown tok _ model hk]
  | true => simp [countAllMessagesTokens_of_known tok systemMessage messages model hk]

/-- C15: for a model with a token scheme `countAllMessagesTokens` is the sum of
`countMessageTokens` over the turns, plus that of the system turn when there is one, plus
the priming constant 3; counting the system turn at any position among the turns gives the
same number; and the result is absent exactly when the scheme of the model is unknown. -/
theorem count_all_is_sum_plus_priming (tok : Tokenizer)
    (systemMessage : Option ChatCompletionMessage) (system : ChatCompletionMessage)
    (messages before after : List ChatCompletionMessage) (model : String) :
    (countAllMessagesTokens tok systemMessage messages model = none ↔
      (_tokensConfiguration model).1 = false) ∧
    ((_tokensConfiguration model).1 = true →
      countAllMessagesTokens tok systemMessage messages model =
        some (tokensOf tok model messages + tokensOf tok model systemMessage.toList + 3) ∧
      (∀ message ∈ messages ++ systemMessage.toList,
        (countMessageTokens tok message model).isSome = true) ∧
      countMessagesTokens tok (before ++ [system] ++ after) model =
        countAllMessagesTokens tok (some system) (before ++ after) model) := by
  constructor
  · exact countAllMessagesTokens_eq_none_iff tok systemMessage messages model
  · intro hk
    refine ⟨countAllMessagesTokens_of_known tok systemMessage messages model hk, ?_, ?_⟩
    · intro message _
      rw [countMessageTokens_of_known tok message model hk]
      rfl
    · rw [countAllMessagesTokens_of_known tok (some system) (before ++ after) model hk,
        countMessagesTokens_of_known tok _ model hk]
      simp only [tokensOf_append, Option.toList_some]
      congr 1
      omega

/-- C15, at the example turns with a system turn, model gpt-3.5-turbo. -/
theorem count_all_is_sum_plus_priming_witness :
    countAllMessagesTokens exampleTokenizer (some ⟨"system", "be brief", ""⟩) exampleTurns
        "gpt-3.5-turbo" =
      some (tokensOf exampleTokenizer "gpt-3.5-turbo" exampleTurns +
        tokensOf exampleTokenizer "gpt-3.5-turbo"
          (some (⟨"system", "be brief", ""⟩ : ChatCompletionMessage)).toList + 3) :=
  ((count_all_is_sum_plus_priming exampleTokenizer (some ⟨"system", "be brief", ""⟩)
    ⟨"system", "be brief", ""⟩ exampleTurns [] [] "gpt-3.5-turbo").2 (by decide)).1

/-! ## The token budget -/

theorem adjust_loop_of_le (tok : Tokenizer) (model : String) (limit : Int)
    (messages : List ChatCompletionMessage) (count : Int) (hle : count ≤ limit) :
    adjustMessageTokens.loop tok model limit messages count = .ok (messages, count) := by
  have hnot : ¬ count > limit := by omega
  cases messages <;> simp [adjustMessageTokens.loop, hnot]

theorem tokensOf_cons_of_known (tok : Tokenizer) (model : String)
    (message : ChatCompletionMessage) (rest : List ChatCompletionMessage) (counted : Int)
    (hc : countMessageTokens tok message model = some counted) :
    tokensOf tok model (message :: rest) = counted + tokensOf tok model rest := by
  simp [tokensOf, hc]

/-- The loop of `adjustMessageTokens` for a model with a token scheme, started above the
limit on turns that suffice to get under it: it stops after the shortest prefix. -/
theorem adjust_loop_spec (tok : Tokenizer) (model : String) (limit : Int)
    (hknown : (_tokensConfiguration model).1 = true) :
    ∀ (messages : List ChatCompletionMessage) (count : Int), count > limit →
      count - tokensOf tok model messages ≤ limit →
      ∃ k, 0 < k ∧ k ≤ messages.length ∧
        adjustMessageTokens.loop tok model limit messages count =
          .ok (messages.drop k, count - tokensOf tok model (messages.take k)) ∧
        count - tokensOf tok model (messages.take k) ≤ limit ∧
        ∀ j, j < k → count - tokensOf tok model (messages.take j) > limit := by
  intro messages
  induction messages with
  | nil =>
    intro count hgt hsuff
    simp [tokensOf] at hsuff
    omega
  | cons message rest ih =>
    intro count hgt hsuff
    have hc := countMessageTokens_of_known tok message model hknown
    have hcons := tokensOf_cons_of_known tok model message rest _ hc
    have hstep : adjustMessageTokens.loop tok model limit (message :: rest) count =
        adjustMessageTokens.loop tok model limit rest
          (count - _countMessageTokens (tok model) (_tokensConfiguration model).2.1
            (_tokensConfiguration model).2.2 message) := by
      simp [adjustMessageTokens.loop, hgt, hc]
    have hone : tokensOf tok model [message] =
        _countMessageTokens (tok model) (_tokensConfiguration model).2.1
          (_tokensConfiguration model).2.2 message := by
      simp [tokensOf, hc]
    by_cases hnext : count - _countMessageTokens (tok model) (_tokensConfiguration model).2.1
        (_tokensConfiguration model).2.2 message > limit
    · obtain ⟨k, hk0, hk, hrun, hle, hmin⟩ := ih _ hnext (by rw [hcons] at hsuff; omega)
      refine ⟨k + 1, by omega, by simpa using hk, ?_, ?_, ?_⟩
      · rw [hstep, hrun]
        simp only [List.drop_succ_cons, List.take_succ_cons]
        rw [tokensOf_cons_of_known tok model message _ _ hc]
        congr 2
        omega
      · simp only [List.take_succ_cons]
        rw [tokensOf_cons_of_known tok model message _ _ hc]
        omega
      · intro j hj
        cases j with
        | zero => simpa [tokensOf] using hgt
        | succ j =>
          have := hmin j (by omega)
          simp only [List.take_succ_cons]
          rw [tokensOf_cons_of_known tok model message _ _ hc]
          omega
    · refine ⟨1, by omega, by simp, ?_, ?_, ?_⟩
      · rw [hstep, adjust_loop_of_le tok model limit rest _ (by omega)]
        simp only [List.drop_succ_cons, List.drop_zero, List.take_succ_cons, List.take_zero]
        rw [hone]
      · simp only [List.take_succ_cons, List.take_zero]
        rw [hone]
        omega
      · intro j hj
        have hj0 : j = 0 := by omega
        subst hj0
        simpa [tokensOf] using hgt

/-- C11 as stated fails: with model gpt-3.5-turbo (limit 3500, scheme known) and a cached
count of 9000 the three example turns measure 4109 tokens together, so no prefix brings the
count to the limit; the loop removes every turn and then reads the first element of the
empty sequence. -/
theorem adjust_exhausts_turns :
    modelTruncateLimit exampleEntry.Model = some 3500 ∧
    (_tokensConfiguration exampleEntry.Model).1 = true ∧
    tokensOf exampleTokenizer exampleEntry.Model exampleEntry.Messages = 4109 ∧
    adjustMessageTokens exampleTokenizer { exampleEntry with TokenCount := 9000 } =
      .error .indexOutOfRange :=
  ⟨by decide, by decide, by decide, rfl⟩

/-- C11, amended: for an entry whose model has a truncate limit `L` and a token scheme and
whose cached count `T` exceeds `L`, if the turns suffice (`T` minus the measured tokens of
all turns is at most `L`), `adjustMessageTokens` removes the shortest prefix of oldest
turns that brings the count to at most `L`: for some `k >= 1` the turns left are the
original ones without the first `k`, the cached count is `T` minus the measured tokens of
those `k` turns and is at most `L`, and before each of the `k` removals (the last one
included) the count was above `L`. -/
theorem adjust_removes_oldest_until_within_limit (tok : Tokenizer)
    (cacheItem : MessagesCacheData) (limit : Int)
    (hlimit : modelTruncateLimit cacheItem.Model = some limit)
    (hknown : (_tokensConfiguration cacheItem.Model).1 = true)
    (hgt : cacheItem.TokenCount > limit)
    (hsuff : cacheItem.TokenCount - tokensOf tok cacheItem.Model cacheItem.Messages ≤ limit) :
    ∃ k, 0 < k ∧ k ≤ cacheItem.Messages.length ∧
      adjustMessageTokens tok cacheItem =
        .ok { cacheItem with
          Messages := cacheItem.Messages.drop k,
          TokenCount := cacheItem.TokenCount -
            tokensOf tok cacheItem.Model (cacheItem.Messages.take k) } ∧
      cacheItem.TokenCount - tokensOf tok cacheItem.Model (cacheItem.Messages.take k)
        ≤ limit ∧
      cacheItem.TokenCount - tokensOf tok cacheItem.Model (cacheItem.Messages.take (k - 1))
        > limit ∧
      ∀ j, j < k →
        cacheItem.TokenCount - tokensOf tok cacheItem.Model (cacheItem.Messages.take j)
          > limit := by
  obtain ⟨k, hk0, hk, hrun, hle, hmin⟩ :=
    adjust_loop_spec tok cacheItem.Model limit hknown cacheItem.Messages cacheItem.TokenCount
      hgt hsuff
  refine ⟨k, hk0, hk, ?_, hle, hmin (k - 1) (by omega), hmin⟩
  simp [adjustMessageTokens, hlimit, hrun]

/-- C11 amended, at the entry of model gpt-3.5-turbo (limit 3500) with turns measuring
1403, 1003 and 1703 tokens and the cached count 4200: only the first turn is removed,
leaving 2797. -/
theorem adjust_removes_oldest_until_within_limit_witness :
    (∃ k, 0 < k ∧ k ≤ exampleEntry.Messages.length ∧
      adjustMessageTokens exampleTokenizer exampleEntry =
        .ok { exampleEntry with
          Messages := exampleEntry.Messages.drop k,
          TokenCount := exampleEntry.TokenCount -
            tokensOf exampleTokenizer exampleEntry.Model (exampleEntry.Messages.take k) } ∧
      exampleEntry.TokenCount -
        tokensOf exampleTokenizer exampleEntry.Model (exampleEntry.Messages.take k) ≤ 3500 ∧
      exampleEntry.TokenCount -
        tokensOf exampleTokenizer exampleEntry.Model (exampleEntry.Messages.take (k - 1))
          > 3500 ∧
      ∀ j, j < k →
        exampleEntry.TokenCount -
          tokensOf exampleTokenizer exampleEntry.Model (exampleEntry.Messages.take j)
            > 3500) ∧
    adjustMessageTokens exampleTokenizer exampleEntry =
      .ok { exampleEntry with Messages := exampleTurns.drop 1, TokenCount := 2797 } :=
  ⟨adjust_removes_oldest_until_within_limit exampleTokenizer exampleEntry 3500
    (by decide) (by decide) (by decide) (by decide), rfl⟩

/-- Without a truncate limit `adjustMessageTokens` returns at once. -/
theorem adjust_without_limit (tok : Tokenizer) (cacheItem : MessagesCacheData)
    (hlimit : modelTruncateLimit cacheItem.Model = none) :
    adjustMessageTokens tok cacheItem = .ok cacheItem := by
  simp [adjustMessageTokens, hlimit]

/-- With a truncate limit but without a token scheme, an entry above the limit loses its
oldest turn and keeps its cached count: the turn is removed before the count is asked for. -/
theorem adjust_without_scheme (tok : Tokenizer) (cacheItem : MessagesCacheData)
    (limit : Int) (oldest : ChatCompletionMessage) (rest : List ChatCompletionMessage)
    (hlimit : modelTruncateLimit cacheItem.Model = some limit)
    (hunknown : (_tokensConfiguration cacheItem.Model).1 = false)
    (hgt : cacheItem.TokenCount > limit)
    (hturns : cacheItem.Messages = oldest :: rest) :
    adjustMessageTokens tok cacheItem = .ok { cacheItem with Messages := rest } := by
  simp [adjustMessageTokens, hlimit, hturns, adjustMessageTokens.loop, hgt,
    countMessageTokens_of_unknown tok oldest cacheItem.Model hunknown]

/-- C12 fails on the code for the model gpt-4-32k, which has a truncate limit (30500) but no
token scheme: an entry above the limit comes back with its oldest turn removed (and the
cached count unchanged), not with its turn sequence unchanged. -/
theorem adjust_drops_turn_of_uncounted_model :
    modelTruncateLimit "gpt-4-32k" = some 30500 ∧
    (_tokensConfiguration "gpt-4-32k").1 = false ∧
    countMessageTokens exampleTokenizer ⟨"user", "aaaaaaaaaa", ""⟩ "gpt-4-32k" = none ∧
    adjustMessageTokens exampleTokenizer
        { exampleEntry with Model := "gpt-4-32k", TokenCount := 31000 } =
      .ok { Messages := exampleTurns.drop 1, SystemMessage := none, Model := "gpt-4-32k",
            Temperature := none, TokenCount := 31000 } ∧
    exampleTurns.drop 1 ≠ exampleTurns :=
  ⟨by decide, by decide, by decide, rfl, by decide⟩

/-- C13: for an entry whose cached token count is at most the truncate limit of its model,
`adjustMessageTokens` returns the entry as it is (turns, system turn, model, temperature
and cached count). -/
theorem adjust_within_limit_is_noop (tok : Tokenizer) (cacheItem : MessagesCacheData)
    (limit : Int) (hlimit : modelTruncateLimit cacheItem.Model = some limit)
    (hle : cacheItem.TokenCount ≤ limit) :
    adjustMessageTokens tok cacheItem = .ok cacheItem := by
  simp [adjustMessageTokens, hlimit,
    adjust_loop_of_le tok cacheItem.Model limit cacheItem.Messages cacheItem.TokenCount hle]

/-- C13, at the example entry with the cached count 3500, the limit of its model. -/
theorem adjust_within_limit_is_noop_witness :
    adjustMessageTokens exampleTokenizer { exampleEntry with TokenCount := 3500 } =
      .ok { exampleEntry with TokenCount := 3500 } :=
  adjust_within_limit_is_noop exampleTokenizer { exampleEntry with TokenCount := 3500 } 3500
    (by decide) (by decide)

/-- C14: for an entry whose model has a truncate limit `L` and a token scheme,
`isCacheItemWithinTruncateLimit` returns `(total <= L, total)` with `total` the result of
`countAllMessagesTokens` on the system turn, the turns and the model, and leaves the entry
with its cached count set to `total` and nothing else changed; for an entry whose model has
no limit or no scheme it returns `(true, 0)` and leaves the entry unchanged. -/
theorem within_limit_recounts (tok : Tokenizer) (cacheItem : MessagesCacheData) :
    (∀ limit, modelTruncateLimit cacheItem.Model = some limit →
      (_tokensConfiguration cacheItem.Model).1 = true →
      ∃ total, countAllMessagesTokens tok cacheItem.SystemMessage cacheItem.Messages
          cacheItem.Model = some total ∧
        total = tokensOf tok cacheItem.Model cacheItem.Messages +
          tokensOf tok cacheItem.Model cacheItem.SystemMessage.toList + 3 ∧
        isCacheItemWithinTruncateLimit tok cacheItem =
          ((decide (total ≤ limit), total), { cacheItem with TokenCount := total }) ∧
        (isCacheItemWithinTruncateLimit tok cacheItem).2.Messages = cacheItem.Messages) ∧
    (modelTruncateLimit cacheItem.Model = none ∨
        (_tokensConfiguration cacheItem.Model).1 = false →
      isCacheItemWithinTruncateLimit tok cacheItem = ((true, 0), cacheItem)) := by
  constructor
  · intro limit hlimit hknown
    have hall := countAllMessagesTokens_of_known tok cacheItem.SystemMessage
      cacheItem.Messages cacheItem.Model hknown
    refine ⟨_, hall, rfl, ?_, ?_⟩
    · simp [isCacheItemWithinTruncateLimit, hlimit, hall]
    · simp [isCacheItemWithinTruncateLimit, hlimit, hall]
  · intro h
    rcases h with h | h
    · simp [isCacheItemWithinTruncateLimit, h]
    · have hnone := (countAllMessagesTokens_eq_none_iff tok cacheItem.SystemMessage
        cacheItem.Messages cacheItem.Model).mpr h
      cases hl : modelTruncateLimit cacheItem.Model <;>
        simp [isCacheItemWithinTruncateLimit, hl, hnone]

/-- C14, at the example entry (model gpt-3.5-turbo: limit 3500 and a scheme) and at the same
entry with the model gpt-4-32k-0613, which has no truncate limit. -/
theorem within_limit_recounts_witness :
    (∃ total, countAllMessagesTokens exampleTokenizer exampleEntry.SystemMessage
        exampleEntry.Messages exampleEntry.Model = some total ∧
      total = tokensOf exampleTokenizer exampleEntry.Model exampleEntry.Messages +
        tokensOf exampleTokenizer exampleEntry.Model exampleEntry.SystemMessage.toList + 3 ∧
      isCacheItemWithinTruncateLimit exampleTokenizer exampleEntry =
        ((decide (total ≤ 3500), total), { exampleEntry with TokenCount := total }) ∧
      (isCacheItemWithinTruncateLimit exampleTokenizer exampleEntry).2.Messages =
        exampleEntry.Messages) ∧
    isCacheItemWithinTruncateLimit exampleTokenizer
        { exampleEntry with Model := "gpt-4-32k-0613" } =
      ((true, 0), { exampleEntry with Model := "gpt-4-32k-0613" }) :=
  ⟨(within_limit_recounts exampleTokenizer exampleEntry).1 3500 (by decide) (by decide),
   (within_limit_recounts exampleTokenizer { exampleEntry with Model := "gpt-4-32k-0613" }).2
     (Or.inl (by decide))⟩

/-! ## Splitting messages -/

theorem len_append (a b : String) : len (a ++ b) = len a + len b := by
  obtain ⟨a⟩ := a
  obtain ⟨b⟩ := b
  show len ⟨a ++ b⟩ = _
  simp [len, String.utf8Len_append]

theorem len_space : len " " = 1 := by decide

theorem len_empty : len "" = 0 := by decide

theorem len_word_space (w : String) : len (w ++ " ") = len w + 1 := by
  rw [len_append, len_space]

theorem spaced_append (a b : List String) : spaced (a ++ b) = spaced a ++ spaced b := by
  induction a with
  | nil => simp [spaced]
  | cons w rest ih => simp [spaced, ih, String.append_assoc]

theorem spaced_singleton (w : String) : spaced [w] = w ++ " " := by
  simp [spaced]

theorem len_spaced (words : List String) : len (spaced words) = spacedLen words := by
  induction words with
  | nil => simp [spaced, spacedLen, len_empty]
  | cons w rest ih =>
    simp only [spaced, len_append, len_space, ih, spacedLen, List.map_cons, List.sum_cons]

theorem concat_append (a b : List String) : concat (a ++ b) = concat a ++ concat b := by
  induction a with
  | nil => simp [concat]
  | cons s rest ih => simp [concat, ih, String.append_assoc]

theorem concat_map_spaced (groups : List (List String)) :
    concat (groups.map spaced) = spaced groups.flatten := by
  induction groups with
  | nil => simp [concat, spaced]
  | cons g rest ih => simp [concat, ih, spaced_append]

/-- The loop of `splitMessage` cuts the words into consecutive groups and writes each group
as one part: the words of the group, each followed by a space. -/
theorem loop_groups (words : List String) :
    ∀ (parts : List String) (current : List String),
      ∃ groups : List (List String), groups.flatten = current ++ words ∧
        splitMessage.loop words parts (spaced current) = parts ++ groups.map spaced := by
  induction words with
  | nil =>
    intro parts current
    exact ⟨[current], by simp, by simp [splitMessage.loop]⟩
  | cons w rest ih =>
    intro parts current
    by_cases h : len (spaced current) + len w + 1 > discordMaxMessageLength
    · obtain ⟨groups, hflat, hrun⟩ := ih (parts ++ [spaced current]) [w]
      refine ⟨current :: groups, by simp [hflat], ?_⟩
      simp only [splitMessage.loop, h, if_true]
      rw [← spaced_singleton, hrun]
      simp
    · obtain ⟨groups, hflat, hrun⟩ := ih parts (current ++ [w])
      refine ⟨groups, by simp [hflat], ?_⟩
      simp only [splitMessage.loop, h, if_false]
      rw [← spaced_singleton, ← spaced_append, hrun]

theorem loop_bounded (words : List String) :
    ∀ (parts : List String) (current : String),
      (∀ w ∈ words, len w ≤ 1999) → (∀ p ∈ parts, len p ≤ 2000) → len current ≤ 2000 →
      ∀ p ∈ splitMessage.loop words parts current, len p ≤ 2000 := by
  induction words with
  | nil =>
    intro parts current _ hparts hcur p hp
    simp only [splitMessage.loop, List.mem_append, List.mem_singleton] at hp
    rcases hp with hp | hp
    · exact hparts p hp
    · rw [hp]
      exact hcur
  | cons w rest ih =>
    intro parts current hwords hparts hcur
    have hw := hwords w (List.mem_cons_self _ _)
    have hrest : ∀ x ∈ rest, len x ≤ 1999 := fun x hx => hwords x (List.mem_cons_of_mem _ hx)
    by_cases h : len current + len w + 1 > discordMaxMessageLength
    · simp only [splitMessage.loop, h, if_true]
      apply ih _ _ hrest
      · intro p hp
        simp only [List.mem_append, List.mem_singleton] at hp
        rcases hp with hp | hp
        · exact hparts p hp
        · rw [hp]
          exact hcur
      · rw [len_word_space]
        omega
    · simp only [splitMessage.loop, h, if_false]
      apply ih _ _ hrest hparts
      rw [len_append, len_word_space]
      simp only [discordMaxMessageLength] at h
      omega

theorem loop_length_ge (words : List String) :
    ∀ (parts : List String) (current : String),
      parts.length + 1 ≤ (splitMessage.loop words parts current).length := by
  induction words with
  | nil => intro parts current; simp [splitMessage.loop]
  | cons w rest ih =>
    intro parts current
    by_cases h : len current + len w + 1 > discordMaxMessageLength
    · simp only [splitMessage.loop, h, if_true]
      have := ih (parts ++ [current]) (w ++ " ")
      simp only [List.length_append, List.length_singleton] at this
      omega
    · simp only [splitMessage.loop, h, if_false]
      exact ih parts _

theorem loop_single (words : List String) :
    ∀ (parts : List String) (current : String),
      len current + spacedLen words ≤ 2000 →
      splitMessage.loop words parts current = parts ++ [current ++ spaced words] := by
  induction words with
  | nil => intro parts current _; simp [splitMessage.loop, spaced]
  | cons w rest ih =>
    intro parts current hfit
    simp only [spacedLen, List.map_cons, List.sum_cons] at hfit
    have h : ¬ len current + len w + 1 > discordMaxMessageLength := by
      simp only [discordMaxMessageLength]
      omega
    simp only [splitMessage.loop, h, if_false]
    rw [ih parts _ (by rw [len_append, len_word_space]; simp only [spacedLen]; omega)]
    simp [spaced, String.append_assoc]

theorem loop_many (words : List String) :
    ∀ (parts : List String) (current : String),
      len current ≤ 2000 → len current + spacedLen words > 2000 →
      parts.length + 2 ≤ (splitMessage.loop words parts current).length := by
  induction words with
  | nil =>
    intro parts current hcur hover
    simp [spacedLen] at hover
    omega
  | cons w rest ih =>
    intro parts current hcur hover
    simp only [spacedLen, List.map_cons, List.sum_cons] at hover
    by_cases h : len current + len w + 1 > discordMaxMessageLength
    · simp only [splitMessage.loop, h, if_true]
      have := loop_length_ge rest (parts ++ [current]) (w ++ " ")
      simp only [List.length_append, List.length_singleton] at this
      omega
    · simp only [splitMessage.loop, h, if_false]
      simp only [discordMaxMessageLength] at h
      apply ih parts _
      · rw [len_append, len_word_space]
        omega
      · rw [len_append, len_word_space]
        simp only [spacedLen]
        omega

theorem isSpace_space : isSpace ' ' = true := by decide

theorem scan_word (u : List Char) :
    ∀ (word rest : List Char), (∀ c ∈ u, isSpace c = false) →
      Fields.scan (u ++ rest) word = Fields.scan rest (u.reverse ++ word) := by
  induction u with
  | nil => intro word rest _; rfl
  | cons c cs ih =>
    intro word rest hu
    have hc : isSpace c = false := hu c (List.mem_cons_self _ _)
    show Fields.scan (c :: (cs ++ rest)) word = _
    simp only [Fields.scan, hc, Bool.false_eq_true, if_false]
    rw [ih (c :: word) rest (fun x hx => hu x (List.mem_cons_of_mem _ hx))]
    simp

theorem scan_isWord (cs : List Char) :
    ∀ (word : List Char), (∀ c ∈ word, isSpace c = false) →
      ∀ w ∈ Fields.scan cs word, IsWord w := by
  induction cs with
  | nil =>
    intro word hword w hw
    cases word with
    | nil => simp [Fields.scan] at hw
    | cons c rest =>
      simp only [Fields.scan, List.isEmpty_cons, Bool.false_eq_true, if_false,
        List.mem_singleton] at hw
      subst hw
      refine ⟨by simp, ?_⟩
      intro x hx
      have hx2 : x ∈ c :: rest := List.mem_reverse.mp hx
      exact hword x hx2
  | cons c rest ih =>
    intro word hword w hw
    by_cases hc : isSpace c = true
    · cases word with
      | nil =>
        simp only [Fields.scan, hc, if_true, List.isEmpty_nil] at hw
        exact ih [] (by simp) w hw
      | cons d ds =>
        simp only [Fields.scan, hc, if_true, List.isEmpty_cons, Bool.false_eq_true, if_false,
          List.mem_cons] at hw
        rcases hw with hw | hw
        · subst hw
          refine ⟨by simp, ?_⟩
          intro x hx
          have hx2 : x ∈ d :: ds := List.mem_reverse.mp hx
          exact hword x hx2
        · exact ih [] (by simp) w hw
    · have hc2 : isSpace c = false := by simpa using hc
      simp only [Fields.scan, hc2, Bool.false_eq_true, if_false] at hw
      apply ih (c :: word) _ w hw
      intro x hx
      simp only [List.mem_cons] at hx
      rcases hx with hx | hx
      · rw [hx]
        exact hc2
      · exact hword x hx

theorem Fields_isWord (s : String) : ∀ w ∈ Fields s, IsWord w :=
  scan_isWord s.data [] (by simp)

theorem Fields_spaced (words : List String) (hwords : ∀ w ∈ words, IsWord w) :
    Fields (spaced words) = words := by
  induction words with
  | nil => rfl
  | cons w rest ih =>
    have hw := hwords w (List.mem_cons_self _ _)
    have hrest := ih (fun x hx => hwords x (List.mem_cons_of_mem _ hx))
    unfold Fields at hrest ⊢
    have hdata : (spaced (w :: rest)).data = w.data ++ (' ' :: (spaced rest).data) := by
      simp only [spaced, String.data_append]
      simp
    rw [hdata, scan_word w.data [] _ hw.2]
    have hne : w.data.reverse ≠ [] := by simpa using hw.1
    cases hrev : w.data.reverse with
    | nil => exact absurd hrev hne
    | cons d ds =>
      simp only [List.append_nil, Fields.scan, isSpace_space, if_true, List.isEmpty_cons,
        Bool.false_eq_true, if_false, hrest]
      rw [← hrev, List.reverse_reverse]

theorem flatMap_Fields_spaced (groups : List (List String))
    (hwords : ∀ w ∈ groups.flatten, IsWord w) :
    (groups.map spaced).flatMap Fields = groups.flatten := by
  induction groups with
  | nil => rfl
  | cons g rest ih =>
    simp only [List.flatten_cons, List.mem_append] at hwords
    simp only [List.map_cons, List.flatMap_cons, List.flatten_cons]
    rw [Fields_spaced g (fun w hw => hwords w (Or.inl hw)),
      ih (fun w hw => hwords w (Or.inr hw))]

/-- A long text is split into the parts of consecutive groups of its words. -/
theorem splitMessage_groups (message : String) (hlong : len message > discordMaxMessageLength) :
    ∃ groups : List (List String), groups.flatten = Fields message ∧
      splitMessage message = groups.map spaced := by
  obtain ⟨groups, hflat, hrun⟩ := loop_groups (Fields message) [] []
  refine ⟨groups, by simpa using hflat, ?_⟩
  have hnot : ¬ len message ≤ discordMaxMessageLength := by omega
  simp only [splitMessage, hnot, if_false]
  simpa [spaced] using hrun

theorem len_replicate (n : Nat) (c : Char) :
    len (String.mk (List.replicate n c)) = n * c.utf8Size := by
  induction n with
  | zero => simp only [List.replicate_zero, Nat.zero_mul]; rfl
  | succ n ih =>
    simp only [len, String.utf8ByteSize_mk, List.replicate_succ, String.utf8Len_cons] at ih ⊢
    rw [ih]
    ring

theorem spacedLen_replicate (n : Nat) (w : String) :
    spacedLen (List.replicate n w) = n * (len w + 1) := by
  simp [spacedLen]

theorem scan_spaces (sp : List Char) (hsp : ∀ c ∈ sp, isSpace c = true) :
    Fields.scan sp [] = [] := by
  induction sp with
  | nil => rfl
  | cons c rest ih =>
    simp only [Fields.scan, hsp c (List.mem_cons_self _ _), if_true, List.isEmpty_nil]
    exact ih (fun x hx => hsp x (List.mem_cons_of_mem _ hx))

/-- A word followed by white space only is the single field of the text. -/
theorem Fields_word_then_spaces (w : String) (sp : List Char) (hw : IsWord w)
    (hsp : ∀ c ∈ sp, isSpace c = true) : Fields (w ++ String.mk sp) = [w] := by
  unfold Fields
  have hdata : (w ++ String.mk sp).data = w.data ++ sp := by
    simp [String.data_append]
  rw [hdata, scan_word w.data [] sp hw.2]
  have hne : w.data.reverse ≠ [] := by simpa using hw.1
  cases hrev : w.data.reverse with
  | nil => exact absurd hrev hne
  | cons d ds =>
    have hword : String.mk (d :: ds).reverse = w := by
      rw [← hrev, List.reverse_reverse]
    cases sp with
    | nil =>
      simp only [List.append_nil, Fields.scan, List.isEmpty_cons, Bool.false_eq_true, if_false,
        hword]
    | cons c rest =>
      simp only [List.append_nil, Fields.scan, hsp c (List.mem_cons_self _ _), if_true,
        List.isEmpty_cons, Bool.false_eq_true, if_false, hword]
      rw [scan_spaces rest (fun x hx => hsp x (List.mem_cons_of_mem _ hx))]

/-- What `splitMessage` returns for a long text that has one word only. -/
theorem splitMessage_single_word (message w : String)
    (hlong : len message > discordMaxMessageLength) (hfields : Fields message = [w]) :
    splitMessage message =
      if len w + 1 > discordMaxMessageLength then ["", w ++ " "] else [w ++ " "] := by
  have hnot : ¬ len message ≤ discordMaxMessageLength := by omega
  simp only [splitMessage, hnot, if_false, hfields, splitMessage.loop, len_empty,
    Nat.zero_add, String.empty_append]
  by_cases h : len w + 1 > discordMaxMessageLength
  · simp only [h, if_true, splitMessage.loop, List.nil_append, List.cons_append]
  · simp only [h, if_false, splitMessage.loop, List.nil_append]

theorem isWord_exampleLongWord : IsWord exampleLongWord := by
  refine ⟨?_, ?_⟩
  · intro h
    have h2 : List.replicate 2001 'a' = [] := h
    have h3 := congrArg List.length h2
    rw [List.length_replicate] at h3
    exact absurd h3 (by decide)
  intro c hc
  have : c = 'a' := List.eq_of_mem_replicate hc
  rw [this]
  decide

theorem Fields_exampleLongWord : Fields exampleLongWord = [exampleLongWord] := by
  have h := Fields_word_then_spaces exampleLongWord [] isWord_exampleLongWord (by simp)
  have he : exampleLongWord ++ String.mk [] = exampleLongWord := String.append_empty _
  rw [he] at h
  exact h

theorem Fields_exampleTrailingSpaces : Fields exampleTrailingSpaces = ["a"] := by
  apply Fields_word_then_spaces "a" (List.replicate 2000 ' ')
  · exact ⟨by decide, by decide⟩
  · intro c hc
    have : c = ' ' := List.eq_of_mem_replicate hc
    rw [this]
    decide

theorem len_exampleLongWord : len exampleLongWord = 2001 := by
  rw [exampleLongWord, len_replicate]
  decide

theorem len_exampleTrailingSpaces : len exampleTrailingSpaces = 2001 := by
  rw [exampleTrailingSpaces, len_append, len_replicate]
  decide

/-- C18 as stated fails: a text of 2001 bytes that is one word comes back as an empty
element and an element of 2002 bytes, and a text of 2001 bytes made of one letter and 2000
spaces comes back as the single element `a ` (white space between words is not kept). -/
theorem split_long_text_counterexamples :
    len exampleLongWord = 2001 ∧
    splitMessage exampleLongWord = ["", exampleLongWord ++ " "] ∧
    len (exampleLongWord ++ " ") = 2002 ∧
    len exampleTrailingSpaces = 2001 ∧
    splitMessage exampleTrailingSpaces = ["a "] := by
  refine ⟨len_exampleLongWord, ?_, ?_, len_exampleTrailingSpaces, ?_⟩
  · rw [splitMessage_single_word exampleLongWord exampleLongWord
      (by rw [len_exampleLongWord]; decide) Fields_exampleLongWord,
      if_pos (by rw [len_exampleLongWord]; decide)]
  · rw [len_word_space, len_exampleLongWord]
  · rw [splitMessage_single_word exampleTrailingSpaces "a"
      (by rw [len_exampleTrailingSpaces]; decide) Fields_exampleTrailingSpaces,
      if_neg (by decide)]
    rfl

/-- C18, amended: for a text longer than 2000 bytes whose words are each at most 1999 bytes
long, every element that `splitMessage` returns has length at most 2000, and more than one
element is returned exactly when the words of the text, each followed by one space, take
more than 2000 bytes. -/
theorem split_parts_within_limit (message : String)
    (hlong : len message > discordMaxMessageLength)
    (hwords : ∀ w ∈ Fields message, len w ≤ 1999) :
    (∀ p ∈ splitMessage message, len p ≤ discordMaxMessageLength) ∧
    ((splitMessage message).length > 1 ↔
      spacedLen (Fields message) > discordMaxMessageLength) := by
  have hnot : ¬ len message ≤ discordMaxMessageLength := by omega
  have hsplit : splitMessage message = splitMessage.loop (Fields message) [] "" := by
    simp only [splitMessage, hnot, if_false]
  rw [hsplit]
  constructor
  · intro p hp
    exact loop_bounded (Fields message) [] "" hwords (by simp) (by rw [len_empty]; omega) p hp
  · constructor
    · intro hmany
      by_contra hfit
      have hone := loop_single (Fields message) [] ""
        (by rw [len_empty]; simp only [discordMaxMessageLength] at hfit; omega)
      rw [hone] at hmany
      simp at hmany
    · intro hover
      have := loop_many (Fields message) [] "" (by rw [len_empty]; omega)
        (by rw [len_empty]; simp only [discordMaxMessageLength] at hover; omega)
      simp only [List.length_nil] at this
      omega

theorem isWord_lorem : IsWord "lorem" := ⟨by decide, by decide⟩

theorem Fields_exampleLongText : Fields exampleLongText = List.replicate 500 "lorem" := by
  apply Fields_spaced
  intro w hw
  rw [List.eq_of_mem_replicate hw]
  exact isWord_lorem

theorem len_exampleLongText : len exampleLongText = 3000 := by
  rw [exampleLongText, len_spaced, spacedLen_replicate]
  decide

/-- C18 amended, at 500 times the word lorem (3000 bytes). -/
theorem split_parts_within_limit_witness :
    len exampleLongText > discordMaxMessageLength ∧
    (∀ w ∈ Fields exampleLongText, len w ≤ 1999) ∧
    (∀ p ∈ splitMessage exampleLongText, len p ≤ discordMaxMessageLength) ∧
    ((splitMessage exampleLongText).length > 1 ↔
      spacedLen (Fields exampleLongText) > discordMaxMessageLength) :=
  have hlong : len exampleLongText > discordMaxMessageLength := by
    rw [len_exampleLongText]
    decide
  have hwords : ∀ w ∈ Fields exampleLongText, len w ≤ 1999 := by
    intro w hw
    rw [Fields_exampleLongText] at hw
    rw [List.eq_of_mem_replicate hw]
    decide
  ⟨hlong, hwords, split_parts_within_limit exampleLongText hlong hwords⟩

/-- C19: the words of the concatenation of the elements returned by `splitMessage`, in
order, are the words of the input; moreover the words of the single elements, one element
after the other, are the words of the input, so no word is lost, duplicated, reordered or
split across two elements. -/
theorem split_preserves_words (message : String) :
    Fields (concat (splitMessage message)) = Fields message ∧
    (splitMessage message).flatMap Fields = Fields message := by
  by_cases hshort : len message ≤ discordMaxMessageLength
  · simp [splitMessage, hshort, concat]
  · obtain ⟨groups, hflat, hsplit⟩ := splitMessage_groups message (by omega)
    have hwords : ∀ w ∈ groups.flatten, IsWord w := by
      rw [hflat]
      exact Fields_isWord message
    rw [hsplit]
    constructor
    · rw [concat_map_spaced, Fields_spaced _ hwords, hflat]
    · rw [flatMap_Fields_spaced groups hwords, hflat]

/-- C20: a text of at most 2000 bytes is returned as the only element, unchanged (its white
space included). -/
theorem split_short_is_identity (message : String)
    (hshort : len message ≤ discordMaxMessageLength) : splitMessage message = [message] := by
  simp [splitMessage, hshort]

/-- C20, at a short text with leading, repeated and trailing white space. -/
theorem split_short_is_identity_witness :
    len "  hello   world \n" ≤ discordMaxMessageLength ∧
    splitMessage "  hello   world \n" = ["  hello   world \n"] :=
  ⟨by decide, split_short_is_identity "  hello   world \n" (by decide)⟩

/-! ## Bounds on token counts and on the parts of a split -/

theorem countMessage_ge_three (enc : String → Nat) (message : ChatCompletionMessage)
    (model : String) (hknown : (_tokensConfiguration model).1 = true) :
    3 ≤ _countMessageTokens enc (_tokensConfiguration model).2.1
      (_tokensConfiguration model).2.2 message := by
  unfold _tokensConfiguration at hknown ⊢
  unfold _countMessageTokens
  split_ifs at hknown ⊢ <;> simp at hknown ⊢ <;> omega

theorem tokensOf_ge (tok : Tokenizer) (model : String)
    (hknown : (_tokensConfiguration model).1 = true) (messages : List ChatCompletionMessage) :
    3 * (messages.length : Int) ≤ tokensOf tok model messages := by
  induction messages with
  | nil => simp [tokensOf]
  | cons message rest ih =>
    have hc := countMessageTokens_of_known tok message model hknown
    rw [tokensOf_cons_of_known tok model message rest _ hc]
    have h3 := countMessage_ge_three (tok model) message model hknown
    simp only [List.length_cons, Nat.cast_add, Nat.cast_one]
    omega

theorem tokensOf_take_succ (tok : Tokenizer) (model : String)
    (hknown : (_tokensConfiguration model).1 = true) (messages : List ChatCompletionMessage)
    (k : Nat) (hk : k < messages.length) :
    tokensOf tok model (messages.take k) + 3 ≤ tokensOf tok model (messages.take (k + 1)) := by
  have hsplit : messages.take (k + 1) = messages.take k ++ [messages.get ⟨k, hk⟩] := by
    rw [List.take_succ]
    simp [List.getElem?_eq_getElem hk]
  rw [hsplit, tokensOf_append]
  have := tokensOf_ge tok model hknown [messages.get ⟨k, hk⟩]
  simp only [List.length_singleton, Nat.cast_one] at this
  omega

/-- Whatever the loop of `adjustMessageTokens` returns, for a model with a token scheme, is
the turns without some first ones and the count less the measured tokens of those. -/
theorem adjust_loop_result (tok : Tokenizer) (model : String) (limit : Int)
    (hknown : (_tokensConfiguration model).1 = true) :
    ∀ (messages : List ChatCompletionMessage) (count : Int)
      (rest : List ChatCompletionMessage) (left : Int),
      adjustMessageTokens.loop tok model limit messages count = .ok (rest, left) →
      ∃ k, k ≤ messages.length ∧ rest = messages.drop k ∧
        left = count - tokensOf tok model (messages.take k) := by
  intro messages
  induction messages with
  | nil =>
    intro count rest left h
    by_cases hgt : count > limit
    · simp [adjustMessageTokens.loop, hgt] at h
    · simp only [adjustMessageTokens.loop, hgt, if_false, Except.ok.injEq, Prod.mk.injEq] at h
      exact ⟨0, by simp, by simp [h.1], by simp [tokensOf, h.2]⟩
  | cons message tail ih =>
    intro count rest left h
    have hc := countMessageTokens_of_known tok message model hknown
    by_cases hgt : count > limit
    · simp only [adjustMessageTokens.loop, hgt, if_true, hc] at h
      obtain ⟨k, hk, hrest, hleft⟩ := ih _ rest left h
      refine ⟨k + 1, by simpa using hk, by simpa using hrest, ?_⟩
      simp only [List.take_succ_cons]
      rw [tokensOf_cons_of_known tok model message _ _ hc, hleft]
      omega
    · simp only [adjustMessageTokens.loop, hgt, if_false, Except.ok.injEq, Prod.mk.injEq] at h
      exact ⟨0, by simp, by simp [h.1], by simp [tokensOf, h.2]⟩

/-- With turns that do not suffice the loop of `adjustMessageTokens` panics. -/
theorem adjust_loop_exhausts (tok : Tokenizer) (model : String) (limit : Int)
    (hknown : (_tokensConfiguration model).1 = true) :
    ∀ (messages : List ChatCompletionMessage) (count : Int),
      count - tokensOf tok model messages > limit →
      adjustMessageTokens.loop tok model limit messages count = .error .indexOutOfRange := by
  intro messages
  induction messages with
  | nil =>
    intro count h
    have hgt : count > limit := by simpa [tokensOf] using h
    simp [adjustMessageTokens.loop, hgt]
  | cons message tail ih =>
    intro count h
    have hc := countMessageTokens_of_known tok message model hknown
    have h3 := tokensOf_ge tok model hknown (message :: tail)
    rw [tokensOf_cons_of_known tok model message tail _ hc] at h
    have hgt : count > limit := by
      rw [tokensOf_cons_of_known tok model message tail _ hc] at h3
      simp only [List.length_cons, Nat.cast_add, Nat.cast_one] at h3
      omega
    simp only [adjustMessageTokens.loop, hgt, if_true, hc]
    exact ih _ (by omega)

theorem ne_empty_of_len_pos (p : String) (h : 0 < len p) : p ≠ "" := by
  intro e
  rw [e, len_empty] at h
  exact absurd h (by decide)

theorem loop_parts_nonempty (words : List String) :
    ∀ (parts : List String) (current : String),
      (∀ w ∈ words, len w ≤ 1999) → (∀ p ∈ parts, 0 < len p) →
      (0 < len current ∨ words ≠ []) →
      ∀ p ∈ splitMessage.loop words parts current, 0 < len p := by
  induction words with
  | nil =>
    intro parts current _ hparts hcur p hp
    simp only [splitMessage.loop, List.mem_append, List.mem_singleton] at hp
    rcases hp with hp | hp
    · exact hparts p hp
    · rw [hp]
      rcases hcur with hcur | hcur
      · exact hcur
      · exact absurd rfl hcur
  | cons w rest ih =>
    intro parts current hwords hparts _
    have hw := hwords w (List.mem_cons_self _ _)
    have hrest : ∀ x ∈ rest, len x ≤ 1999 := fun x hx => hwords x (List.mem_cons_of_mem _ hx)
    by_cases h : len current + len w + 1 > discordMaxMessageLength
    · simp only [splitMessage.loop, h, if_true]
      apply ih _ _ hrest
      · intro p hp
        simp only [List.mem_append, List.mem_singleton] at hp
        rcases hp with hp | hp
        · exact hparts p hp
        · rw [hp]
          simp only [discordMaxMessageLength] at h
          omega
      · left
        rw [len_word_space]
        omega
    · simp only [splitMessage.loop, h, if_false]
      apply ih _ _ hrest hparts
      left
      rw [len_append, len_word_space]
      omega

/-- C27 fails on the code: `adjustMessageTokens` reads `Messages[0]` of an empty turn
sequence.  An entry of model gpt-3.5-turbo (limit 3500) with no turns and a cached count of
3501 panics at once; and so does the entry with one short turn and the cached count 4000
that the API reported, after that turn has been removed. -/
theorem adjust_reads_first_of_empty_turns :
    adjustMessageTokens exampleTokenizer
        { Messages := [], SystemMessage := none, Model := "gpt-3.5-turbo",
          Temperature := none, TokenCount := 3501 } = .error .indexOutOfRange ∧
    countMessageTokens exampleTokenizer ⟨"user", "hi", ""⟩ "gpt-3.5-turbo" = some 603 ∧
    adjustMessageTokens exampleTokenizer
        { Messages := [⟨"user", "hi", ""⟩], SystemMessage := some ⟨"system", "be brief", ""⟩,
          Model := "gpt-3.5-turbo", Temperature := none, TokenCount := 4200 } =
      .error .indexOutOfRange :=
  ⟨rfl, by decide, rfl⟩

/-- C28: for a text longer than 2000 bytes that has at least one word and whose words are
each at most 1999 bytes long, every element that `splitMessage` returns is non-empty and
at most 2000 bytes long. -/
theorem split_parts_nonempty_and_bounded (message : String)
    (hlong : len message > discordMaxMessageLength)
    (hsome : Fields message ≠ [])
    (hwords : ∀ w ∈ Fields message, len w ≤ 1999) :
    ∀ p ∈ splitMessage message, p ≠ "" ∧ 0 < len p ∧ len p ≤ discordMaxMessageLength := by
  have hnot : ¬ len message ≤ discordMaxMessageLength := by omega
  have hsplit : splitMessage message = splitMessage.loop (Fields message) [] "" := by
    simp only [splitMessage, hnot, if_false]
  rw [hsplit]
  intro p hp
  have hpos := loop_parts_nonempty (Fields message) [] "" hwords (by simp) (Or.inr hsome) p hp
  exact ⟨ne_empty_of_len_pos p hpos, hpos,
    loop_bounded (Fields message) [] "" hwords (by simp) (by rw [len_empty]; omega) p hp⟩

/-- C28, at 500 times the word lorem (3000 bytes). -/
theorem split_parts_nonempty_and_bounded_witness :
    len exampleLongText > discordMaxMessageLength ∧ Fields exampleLongText ≠ [] ∧
    (∀ w ∈ Fields exampleLongText, len w ≤ 1999) ∧
    ∀ p ∈ splitMessage exampleLongText,
      p ≠ "" ∧ 0 < len p ∧ len p ≤ discordMaxMessageLength :=
  have hlong : len exampleLongText > discordMaxMessageLength := by
    rw [len_exampleLongText]
    decide
  have hsome : Fields exampleLongText ≠ [] := by
    rw [Fields_exampleLongText]
    intro h
    have h2 := congrArg List.length h
    rw [List.length_replicate] at h2
    exact absurd h2 (by decide)
  have hwords : ∀ w ∈ Fields exampleLongText, len w ≤ 1999 := by
    intro w hw
    rw [Fields_exampleLongText] at hw
    rw [List.eq_of_mem_replicate hw]
    decide
  ⟨hlong, hsome, hwords, split_parts_nonempty_and_bounded exampleLongText hlong hsome hwords⟩

/-- C29: for a model with a token scheme `countMessageTokens` of any turn, with or without a
name, is at least 3 (also for gpt-3.5-turbo-0301, whose adjustment for a name is -1); so
`countMessagesTokens` of `n` turns is at least `3n + 3`, the measured tokens grow by at
least 3 with each further turn, and whatever the loop of `adjustMessageTokens` returns has
a cached count that is lower by at least 3 for each turn it removed. -/
theorem count_message_tokens_at_least_three (tok : Tokenizer)
    (message : ChatCompletionMessage) (messages : List ChatCompletionMessage)
    (model : String) (limit count : Int)
    (hknown : (_tokensConfiguration model).1 = true) :
    (∃ c, countMessageTokens tok message model = some c ∧ 3 ≤ c) ∧
    (∃ t, countMessagesTokens tok messages model = some t ∧
      3 * (messages.length : Int) + 3 ≤ t) ∧
    (∀ k, k < messages.length →
      count - tokensOf tok model (messages.take (k + 1)) <
        count - tokensOf tok model (messages.take k)) ∧
    (∀ rest left, adjustMessageTokens.loop tok model limit messages count = .ok (rest, left) →
      rest.length ≤ messages.length ∧
      left + 3 * ((messages.length - rest.length : Nat) : Int) ≤ count) := by
  refine ⟨⟨_, countMessageTokens_of_known tok message model hknown,
    countMessage_ge_three (tok model) message model hknown⟩,
    ⟨_, countMessagesTokens_of_known tok messages model hknown, ?_⟩, ?_, ?_⟩
  · have := tokensOf_ge tok model hknown messages
    omega
  · intro k hk
    have := tokensOf_take_succ tok model hknown messages k hk
    omega
  · intro rest left h
    obtain ⟨k, hk, hrest, hleft⟩ := adjust_loop_result tok model limit hknown messages count
      rest left h
    have hlen : rest.length = messages.length - k := by
      rw [hrest, List.length_drop]
    have hge := tokensOf_ge tok model hknown (messages.take k)
    rw [List.length_take, Nat.min_eq_left hk] at hge
    refine ⟨by omega, ?_⟩
    rw [hlen, hleft]
    have hk2 : messages.length - (messages.length - k) = k := by omega
    rw [hk2]
    omega

/-- C29, at a named turn of gpt-3.5-turbo-0301 that the tokenizer measures as nothing. -/
theorem count_message_tokens_at_least_three_witness :
    ∃ c, countMessageTokens (fun _ _ => 0) ⟨"user", "", "bob"⟩ "gpt-3.5-turbo-0301" = some c ∧
      3 ≤ c :=
  (count_message_tokens_at_least_three (fun _ _ => 0) ⟨"user", "", "bob"⟩ []
    "gpt-3.5-turbo-0301" 3500 0 (by decide)).1

/-- C30: `splitMessage` returns a non-empty sequence for every text, so its first element
exists. -/
theorem split_returns_an_element (message : String) :
    splitMessage message ≠ [] ∧ 0 < (splitMessage message).length ∧
    ∃ first rest, splitMessage message = first :: rest := by
  have hpos : 0 < (splitMessage message).length := by
    by_cases hshort : len message ≤ discordMaxMessageLength
    · simp [splitMessage, hshort]
    · simp only [splitMessage, hshort, if_false]
      have := loop_length_ge (Fields message) [] ""
      simp only [List.length_nil] at this
      omega
  refine ⟨?_, hpos, ?_⟩
  · intro h
    rw [h] at hpos
    simp at hpos
  · cases hs : splitMessage message with
    | nil =>
      rw [hs] at hpos
      simp at hpos
    | cons first rest => exact ⟨first, rest, rfl⟩

/-! ## Context data, the context option and interaction replies -/

/-- For a string that is not a URL `getContentOrURLData` makes no request and returns the
zero values of its results. -/
theorem getContentOrURLData_of_not_url (parse : UrlParser) (client : HttpClient) (s : String)
    (hnot : IsURL parse s = false) :
    getContentOrURLData parse client s = { content := "", err := none, requests := [] } := by
  simp [getContentOrURLData, hnot]

/-- For a URL `getContentOrURLData` is `getUrlData`: one request, and the body of the
response or the error of the request. -/
theorem getContentOrURLData_of_url (parse : UrlParser) (client : HttpClient) (s : String)
    (hurl : IsURL parse s = true) :
    getContentOrURLData parse client s = getUrlData client s := by
  simp [getContentOrURLData, hurl]

/-- C23 fails on the code: for a string that is not a URL `getContentOrURLData` returns the
empty string, not the string itself (no request is made and the error is nil, as
claimed). -/
theorem content_of_non_url_is_lost :
    IsURL exampleParse "You are a helpful assistant." = false ∧
    getContentOrURLData exampleParse exampleClient "You are a helpful assistant." =
      { content := "", err := none, requests := [] } ∧
    (getContentOrURLData exampleParse exampleClient "You are a helpful assistant.").content ≠
      "You are a helpful assistant." := by
  decide

theorem contextOption_of_context (options : bot.OptionsMap) (cacheItem : MessagesCacheData)
    (fields : List MessageEmbedField) (option : bot.DataOption)
    (hoption : bot.mapGet options "context" = some option) :
    chatGPTHandler.contextOption options cacheItem fields =
      if len option.Value ≥ gptContextOptionMaxLength then
        .rejected "Failed to process command"
          ("Provided context is above the limit of " ++ toString gptContextOptionMaxLength ++
            " characters. Please use `context-file` option instead")
      else
        .accepted
          { cacheItem with
            SystemMessage := some { Role := "system", Content := option.Value, Name := "" } }
          (fields ++ [{ Name := "Context", Value := option.Value }]) := by
  have hname : gptCommandOptionType.string gptCommandOptionContext = "context" := by decide
  unfold chatGPTHandler.contextOption
  rw [hname, hoption]
  rfl

/-- C24 fails on the code: a context of exactly 1024 bytes, which does not exceed
`gptContextOptionMaxLength`, is rejected with the error that it is above the limit,
because the test is `len(context) >= gptContextOptionMaxLength`. -/
theorem context_of_max_length_is_rejected :
    len exampleContext1024 = 1024 ∧ ¬ len exampleContext1024 > gptContextOptionMaxLength ∧
    chatGPTHandler.contextOption
        [("context", { Name := "context", Type_ := 3, Value := exampleContext1024,
                       Options := [] })] exampleEntry [] =
      .rejected "Failed to process command"
        ("Provided context is above the limit of " ++ toString gptContextOptionMaxLength ++
          " characters. Please use `context-file` option instead") := by
  have hlen : len exampleContext1024 = 1024 := by
    rw [exampleContext1024, len_replicate]
    decide
  refine ⟨hlen, by rw [hlen]; decide, ?_⟩
  rw [contextOption_of_context
    [("context", { Name := "context", Type_ := 3, Value := exampleContext1024, Options := [] })]
    exampleEntry []
    { Name := "context", Type_ := 3, Value := exampleContext1024, Options := [] } rfl]
  exact if_pos (by show len exampleContext1024 ≥ gptContextOptionMaxLength; rw [hlen]; decide)

theorem field_context (parseFloat : String → Option Nat) (acc : ParsedReply)
    (field : MessageEmbedField) :
    (parseInteractionReply.field parseFloat acc field).context =
      contextAfter acc.context field := by
  have h1 : gptCommandOptionType.humanReadableString gptCommandOptionPrompt = "Prompt" := by
    decide
  have h2 : gptCommandOptionType.humanReadableString gptCommandOptionContext = "Context" := by
    decide
  have h3 : gptCommandOptionType.humanReadableString gptCommandOptionContextFile =
      "Context file" := by decide
  have h4 : gptCommandOptionType.humanReadableString gptCommandOptionModel = "Model" := by
    decide
  have h5 : gptCommandOptionType.humanReadableString gptCommandOptionTemperature =
      "Temperature" := by decide
  unfold parseInteractionReply.field contextAfter
  rw [h1, h2, h3, h4, h5]
  by_cases hp : field.Name = "Prompt"
  · have hc : ¬ field.Name = "Context" := by rw [hp]; decide
    have hf : ¬ field.Name = "Context file" := by rw [hp]; decide
    simp [hp]
  · by_cases hc : field.Name = "Context"
    · by_cases he : acc.context = "" <;> simp [hc, he]
    · by_cases hf : field.Name = "Context file"
      · simp [hf]
      · by_cases hm : field.Name = "Model"
        · simp [hp, hc, hf, hm]
        · by_cases ht : field.Name = "Temperature"
          · cases hpf : parseFloat field.Value <;> simp [hp, hc, hf, hm, ht, hpf]
          · simp [hp, hc, hf, hm, ht]

theorem fields_context (parseFloat : String → Option Nat) (fields : List MessageEmbedField) :
    ∀ acc : ParsedReply,
      (fields.foldl (parseInteractionReply.field parseFloat) acc).context =
        fields.foldl contextAfter acc.context := by
  induction fields with
  | nil => intro acc; rfl
  | cons f rest ih =>
    intro acc
    simp only [List.foldl_cons]
    rw [ih, field_context]

theorem embeds_context (parseFloat : String → Option Nat) (embeds : List MessageEmbed) :
    ∀ acc : ParsedReply,
      (embeds.foldl (parseInteractionReply.embed parseFloat) acc).context =
        (embeds.flatMap MessageEmbed.Fields).foldl contextAfter acc.context := by
  induction embeds with
  | nil => intro acc; rfl
  | cons e rest ih =>
    intro acc
    simp only [List.foldl_cons, List.flatMap_cons, List.foldl_append]
    rw [ih]
    congr 1
    unfold parseInteractionReply.embed
    rw [fields_context]
    by_cases hd : e.Description = "" <;> simp [hd]

/-- Once the context is not empty, fields other than `Context file` leave it as it is. -/
theorem context_kept (fields : List MessageEmbedField) :
    ∀ context : String, context ≠ "" → (∀ f ∈ fields, f.Name ≠ "Context file") →
      fields.foldl contextAfter context = context := by
  induction fields with
  | nil => intro context _ _; rfl
  | cons f rest ih =>
    intro context hne hno
    have hf : ¬ f.Name = "Context file" := hno f (List.mem_cons_self _ _)
    have hstep : contextAfter context f = context := by
      unfold contextAfter
      by_cases hc : f.Name = "Context" <;> simp [hc, hne, hf]
    simp only [List.foldl_cons, hstep]
    exact ih context hne (fun x hx => hno x (List.mem_cons_of_mem _ hx))

/-- C25 fails on the code: when the value of the `Context file` field is empty and a
`Context` field follows it, `parseInteractionReply` returns the plain context and not the
value of the `Context file` field, because the `Context` case takes an empty context for one
that is not yet set. -/
theorem empty_file_context_yields_to_plain_context :
    (parseInteractionReply (fun _ => none)
      [⟨"Tell me a story", [⟨"Context file", ""⟩, ⟨"Context", "You are a pirate."⟩]⟩]).context
      = "You are a pirate." ∧
    (parseInteractionReply (fun _ => none)
      [⟨"Tell me a story", [⟨"Context file", ""⟩, ⟨"Context", "You are a pirate."⟩]⟩]).context
      ≠ "" := by
  decide

/-- When the embeds of the message hold a `Context file` field with a
non-empty value (the last such field, if there are more), then, wherever `Context` fields
stand, before or after it, in the same or in other embeds, `parseInteractionReply` returns
the value of that `Context file` field as context. -/
theorem file_context_takes_precedence (parseFloat : String → Option Nat)
    (embeds : List MessageEmbed) (before after : List MessageEmbedField)
    (file : MessageEmbedField)
    (hfields : embeds.flatMap MessageEmbed.Fields = before ++ file :: after)
    (hfile : file.Name = "Context file")
    (hlast : ∀ f ∈ after, f.Name ≠ "Context file")
    (hvalue : file.Value ≠ "") :
    (parseInteractionReply parseFloat embeds).context = file.Value := by
  unfold parseInteractionReply
  rw [embeds_context, hfields, List.foldl_append, List.foldl_cons]
  have hstep : ∀ c, contextAfter c file = file.Value := by
    intro c
    have hc : ¬ file.Name = "Context" := by rw [hfile]; decide
    simp [contextAfter, hc, hfile]
  rw [hstep]
  exact context_kept after file.Value hvalue hlast

/-- The precedence of a non-empty file context, at a reply whose first embed has the plain
context and the file context in that order and whose second embed has another plain
context. -/
theorem file_context_takes_precedence_witness :
    (parseInteractionReply (fun _ => none)
      [⟨"Tell me a story",
          [⟨"Context", "You are a pirate."⟩,
           ⟨"Context file", "https://cdn.example.com/context.txt"⟩]⟩,
        ⟨"", [⟨"Context", "Be brief."⟩, ⟨"Model", "gpt-4"⟩]⟩]).context =
      "https://cdn.example.com/context.txt" :=
  file_context_takes_precedence (fun _ => none)
    [⟨"Tell me a story",
        [⟨"Context", "You are a pirate."⟩,
         ⟨"Context file", "https://cdn.example.com/context.txt"⟩]⟩,
      ⟨"", [⟨"Context", "Be brief."⟩, ⟨"Model", "gpt-4"⟩]⟩]
    [⟨"Context", "You are a pirate."⟩] [⟨"Context", "Be brief."⟩, ⟨"Model", "gpt-4"⟩]
    ⟨"Context file", "https://cdn.example.com/context.txt"⟩ rfl rfl (by decide) (by decide)

/-! ## The conversation cache -/

theorem filter_ne_of_not_mem (entries : List (String × MessagesCacheData)) (key : String)
    (hfresh : key ∉ entries.map Prod.fst) :
    entries.filter (fun held => held.1 ≠ key) = entries := by
  rw [List.filter_eq_self]
  intro held hheld
  have : held.1 ≠ key := by
    intro e
    apply hfresh
    rw [← e]
    exact List.mem_map_of_mem _ hheld
  simpa using this

/-- After insertions with distinct keys into an empty cache of capacity at least 1 the
cache holds the last `capacity` of them, in order. -/
theorem entries_after_insertions (capacity : Nat) (hcap : 1 ≤ capacity)
    (insertions : List (String × MessagesCacheData)) :
    (insertions.map Prod.fst).Nodup →
    (insertions.foldl (fun cache kv => cache.Add kv.1 kv.2) (NewMessagesCache capacity)) =
      { capacity := capacity,
        entries := insertions.drop (insertions.length - capacity) } := by
  induction insertions using List.reverseRecOn with
  | nil => intro _; simp [NewMessagesCache]
  | append_singleton init kv ih =>
    intro hnodup
    rw [List.map_append, List.nodup_append] at hnodup
    obtain ⟨hinit, _, hdisj⟩ := hnodup
    have hfresh : kv.1 ∉ init.map Prod.fst := fun hmem => hdisj hmem (by simp)
    have hfresh2 : kv.1 ∉ (init.drop (init.length - capacity)).map Prod.fst := by
      intro hmem
      apply hfresh
      rw [List.map_drop] at hmem
      exact List.mem_of_mem_drop hmem
    rw [List.foldl_append, ih hinit]
    simp only [List.foldl_cons, List.foldl_nil, MessagesCache.Add,
      filter_ne_of_not_mem _ _ hfresh2, List.length_drop, List.length_append,
      List.length_singleton]
    by_cases hfull : init.length ≥ capacity
    · have h1 : init.length - (init.length - capacity) ≥ capacity := by omega
      have h2 : init.length + 1 - capacity = init.length - capacity + 1 := by omega
      simp only [h1, if_true, List.drop_drop, h2]
      rw [List.drop_append_of_le_length (by omega)]
    · have h1 : ¬ init.length - (init.length - capacity) ≥ capacity := by omega
      have h2 : init.length + 1 - capacity = 0 := by omega
      have h3 : init.length - capacity = 0 := by omega
      have h4 : ¬ init.length - 0 ≥ capacity := by omega
      simp only [h2, h3, h4, if_false, List.drop_zero]

theorem apply_all_eq_insertions (ops : List CacheOp) :
    ∀ cache : MessagesCache,
      ops.foldl MessagesCache.apply cache =
        (insertionsOf ops).foldl (fun cache kv => cache.Add kv.1 kv.2) cache := by
  induction ops with
  | nil => intro cache; rfl
  | cons op rest ih =>
    intro cache
    cases op with
    | add key entry => simp only [List.foldl_cons, insertionsOf, MessagesCache.apply, ih]
    | get key =>
      simp only [List.foldl_cons, insertionsOf, MessagesCache.apply, MessagesCache.Get, ih]

theorem mapGet_of_mem_nodup {β : Type} (m : List (String × β)) (key : String) (v : β)
    (hnodup : (m.map Prod.fst).Nodup) (hmem : (key, v) ∈ m) : bot.mapGet m key = some v := by
  induction m with
  | nil => simp at hmem
  | cons e rest ih =>
    obtain ⟨k, w⟩ := e
    simp only [List.map_cons, List.nodup_cons] at hnodup
    simp only [List.mem_cons, Prod.mk.injEq] at hmem
    rcases hmem with ⟨hk, hv⟩ | hmem
    · subst hk
      subst hv
      simp [bot.mapGet]
    · have hne : ¬ k = key := by
        intro e
        apply hnodup.1
        rw [e]
        exact List.mem_map_of_mem Prod.fst hmem
      simp [bot.mapGet, hne, ih hnodup.2 hmem]

/-- C22: for a capacity `C >= 1` and `C + 1` insertions with distinct keys into an empty
cache, with reads of any keys anywhere in between, the cache ends with the last `C`
insertions: `Get` on the first key is absent and `Get` on each of the other `C` keys gives
the entry inserted under it.  A read leaves the cache as it is, so the reads do not change
which entry is evicted. -/
theorem cache_evicts_earliest_insertion (capacity : Nat) (ops : List CacheOp)
    (first : String × MessagesCacheData) (others : List (String × MessagesCacheData))
    (cache : MessagesCache) (key : String)
    (hcap : 1 ≤ capacity)
    (hins : insertionsOf ops = first :: others)
    (hcount : others.length = capacity)
    (hdistinct : ((first :: others).map Prod.fst).Nodup) :
    (ops.foldl MessagesCache.apply (NewMessagesCache capacity)).entries = others ∧
    ((ops.foldl MessagesCache.apply (NewMessagesCache capacity)).Get first.1).1 = none ∧
    (∀ kv ∈ others,
      ((ops.foldl MessagesCache.apply (NewMessagesCache capacity)).Get kv.1).1 = some kv.2) ∧
    (cache.Get key).2 = cache := by
  have hentries : ops.foldl MessagesCache.apply (NewMessagesCache capacity) =
      { capacity := capacity, entries := others } := by
    rw [apply_all_eq_insertions, hins, entries_after_insertions capacity hcap _ hdistinct]
    simp [hcount]
  rw [hentries]
  simp only [List.map_cons, List.nodup_cons] at hdistinct
  refine ⟨rfl, ?_, ?_, rfl⟩
  · simp only [MessagesCache.Get]
    rw [bot.mapGet_eq_none_iff]
    exact hdistinct.1
  · intro kv hkv
    simp only [MessagesCache.Get]
    exact mapGet_of_mem_nodup others kv.1 kv.2 hdistinct.2 hkv

/-- C22, at capacity 2 and the keys A, B, C with a read of A before C is inserted: A is
absent, B and C are present. -/
theorem cache_evicts_earliest_insertion_witness :
    (((([CacheOp.add "A" exampleEntry, .add "B" exampleEntry, .get "A",
        .add "C" exampleEntry] : List CacheOp).foldl MessagesCache.apply
        (NewMessagesCache 2)).Get "A").1 = none) ∧
    (∀ kv ∈ [("B", exampleEntry), ("C", exampleEntry)],
      ((([CacheOp.add "A" exampleEntry, .add "B" exampleEntry, .get "A",
        .add "C" exampleEntry] : List CacheOp).foldl MessagesCache.apply
        (NewMessagesCache 2)).Get kv.1).1 = some kv.2) :=
  have h := cache_evicts_earliest_insertion 2
    [CacheOp.add "A" exampleEntry, .add "B" exampleEntry, .get "A", .add "C" exampleEntry]
    ("A", exampleEntry) [("B", exampleEntry), ("C", exampleEntry)] (NewMessagesCache 2) "A"
    (by decide) rfl rfl (by decide)
  ⟨h.2.1, h.2.2.1⟩

end gpt

namespace dalle

/-! ## The moderation middleware -/

/-- A handler that never calls `Next` ends the run: it is entered and the rest of the queue
stays as it is. -/
theorem Next_stops_at (env : bot.Env) (handler : bot.HandlerFunc)
    (post : List bot.Handler) (w : bot.World)
    (hnever : handler.body.neverCallsNext = true) :
    bot.Same (bot.Cursor.Next env { handlers := some handler :: post, world := w })
      (bot.Cursor.record { handlers := post, world := w } (.invoke handler.id)) := by
  have e := bot.Next_eq env { handlers := some handler :: post, world := w }
  simp only at e
  rw [e]
  exact bot.runBody_never env (bot.Cursor.Next env) handler.body hnever _

/-- A handler that calls `Next` once, followed by the terminal handler only: both are
entered, in that order, and the queue is drained. -/
theorem Next_passes_on (env : bot.Env) (handler terminal : bot.HandlerFunc) (w : bot.World)
    (honce : handler.body.callsNextOnce = true) :
    (bot.Cursor.Next env { handlers := [some handler, some terminal], world := w }).handlers
      = [] ∧
    bot.invoked (bot.Cursor.Next env
      { handlers := [some handler, some terminal], world := w }).world.events =
      bot.invoked w.events ++ [handler.id, terminal.id] := by
  obtain ⟨s1, hh, hi, _, hsame⟩ := bot.Next_through_once env [handler]
    (by intro h hh; rw [List.mem_singleton.mp hh]; exact honce) [some terminal]
    { handlers := [some handler, some terminal], world := w } rfl
  obtain ⟨handlers1, w1⟩ := s1
  simp only at hh hi
  subst hh
  have e := bot.Next_eq env { handlers := [some terminal], world := w1 }
  simp only at e
  rw [e] at hsame
  have hrun := bot.runBody_drained env terminal.body
    (bot.Cursor.record { handlers := [], world := w1 } (.invoke terminal.id)) rfl
  have h := bot.Same_trans hsame hrun
  refine ⟨h.1, ?_⟩
  rw [h.2.1]
  simp only [bot.Cursor.record, bot.invoked_append, hi, List.map_cons, List.map_nil,
    List.append_assoc]
  rfl

/-- C21: for an invocation that carries the prompt option, `imageModerationMiddleware` calls
`Next` exactly once when the moderation call fails and when its first result is not
flagged, and it does not call `Next` when the first result is flagged: in a chain where the
terminal image handler follows the middleware the handler then stays in the queue and is
not entered, while in the two other cases it is entered after the middleware.  When the
prompt option is missing the middleware does not call `Next`. -/
theorem moderation_gates_the_chain (promptName : String) (moderation : Moderation)
    (options : bot.OptionsMap) (env : bot.Env) (id : Nat) (terminal : bot.HandlerFunc)
    (w : bot.World) :
    (∀ option, bot.mapGet options promptName = some option →
      (∀ e, moderation option.Value = .error e →
        ∃ b, imageModerationMiddleware promptName moderation options = .ok b ∧
          b.callsNextOnce = true ∧
          bot.invoked (bot.Cursor.Next env
            { handlers := [some ⟨id, b⟩, some terminal], world := w }).world.events =
            bot.invoked w.events ++ [id, terminal.id]) ∧
      (∀ result rest, moderation option.Value = .ok (result :: rest) →
        result.Flagged = false →
        ∃ b, imageModerationMiddleware promptName moderation options = .ok b ∧
          b.callsNextOnce = true ∧
          bot.invoked (bot.Cursor.Next env
            { handlers := [some ⟨id, b⟩, some terminal], world := w }).world.events =
            bot.invoked w.events ++ [id, terminal.id]) ∧
      (∀ result rest, moderation option.Value = .ok (result :: rest) →
        result.Flagged = true →
        ∃ b, imageModerationMiddleware promptName moderation options = .ok b ∧
          b.neverCallsNext = true ∧
          (bot.Cursor.Next env
            { handlers := [some ⟨id, b⟩, some terminal], world := w }).handlers =
            [some terminal] ∧
          bot.invoked (bot.Cursor.Next env
            { handlers := [some ⟨id, b⟩, some terminal], world := w }).world.events =
            bot.invoked w.events ++ [id])) ∧
    (bot.mapGet options promptName = none →
      ∃ b, imageModerationMiddleware promptName moderation options = .ok b ∧
        b.neverCallsNext = true) := by
  constructor
  · intro option hoption
    refine ⟨?_, ?_, ?_⟩
    · intro e he
      refine ⟨.next .ret, by simp [imageModerationMiddleware, hoption, he], rfl, ?_⟩
      exact (Next_passes_on env ⟨id, .next .ret⟩ terminal w rfl).2
    · intro result rest hres hflag
      refine ⟨.next .ret, by simp [imageModerationMiddleware, hoption, hres, hflag], rfl, ?_⟩
      exact (Next_passes_on env ⟨id, .next .ret⟩ terminal w rfl).2
    · intro result rest hres hflag
      have hstop := Next_stops_at env ⟨id, .work followupFlagged .ret⟩ [some terminal] w rfl
      refine ⟨.work followupFlagged .ret,
        by simp [imageModerationMiddleware, hoption, hres, hflag], rfl, hstop.1, ?_⟩
      rw [hstop.2.1]
      simp only [bot.Cursor.record, bot.invoked_append]
      rfl
  · intro hnone
    exact ⟨.work respondParseError .ret, by simp [imageModerationMiddleware, hnone], rfl⟩

/-- C21, at an invocation with the option `prompt` whose moderation comes back flagged: the
image handler that follows the middleware is not entered. -/
theorem moderation_gates_the_chain_witness :
    ∃ b, imageModerationMiddleware "prompt" (fun _ => .ok [⟨true⟩])
        [("prompt", bot.examplePrompt)] = .ok b ∧
      b.neverCallsNext = true ∧
      (bot.Cursor.Next (fun _ => true)
        { handlers := [some ⟨4, b⟩, some bot.exampleImageHandler],
          world := ⟨[], false⟩ }).handlers = [some bot.exampleImageHandler] ∧
      bot.invoked (bot.Cursor.Next (fun _ => true)
        { handlers := [some ⟨4, b⟩, some bot.exampleImageHandler],
          world := ⟨[], false⟩ }).world.events = bot.invoked [] ++ [4] :=
  ((moderation_gates_the_chain "prompt" (fun _ => .ok [⟨true⟩])
    [("prompt", bot.examplePrompt)] (fun _ => true) 4 bot.exampleImageHandler
    ⟨[], false⟩).1 bot.examplePrompt rfl).2.2 ⟨true⟩ [] rfl rfl

end dalle
